import Mathlib

/-!
The aggregation pipeline of codex-usage-stats (`main.go`).

A shallow embedding of the aggregation code of `main.go` (`parseHistory`,
`parseSessionTokens`, `collectTokenStats`, `calculateStats`) and the
properties of it that the specification states.

Modelling conventions

* A Go `string` is its sequence of bytes (`GoString`); `s[:7]` slices bytes
  and panics when the string is shorter.
* A line-delimited file is the list of its lines.  Of a line the code only
  observes two things: whether `bufio.Scanner` can deliver it (the number of
  bytes before its line feed, the carriage return of a CR LF terminator
  included, against the 10 MiB buffer set with `scanner.Buffer`) and what
  `json.Unmarshal` makes of it (an error, or a decoded value).
* `int64` token counters come from the input files, so their sums can wrap:
  they are integers in `[-2^63, 2^63)` with wrapping addition.
* `calculateStats` takes any `map[string]int`: its additions on `int` (the
  total and the monthly totals) wrap around at `2^63` (`wrapInt64`; `int` has
  64 bits, as on the platforms the tool is built for).
* The counters that `parseHistory` and `collectTokenStats` increment by one
  count lines of one file and directory entries (a log of n lines has more
  than n bytes, and a file has fewer than `2^63` bytes); they cannot reach
  `2^63` and are plain integers.
* A Go `map[string]V` is the list of its entries in increasing key order, so
  that two maps with the same entries are equal.  Go leaves the order of
  `range` over a map unspecified: every `range` loop gets its enumeration
  order, a permutation of the entries, from the run-time environment (`Env`),
  as does `sort.Slice`, which is not stable.
* A `float64` is a finite double `man * 2^exp`; conversion and division round
  to nearest, ties to even.
* A run-time panic is the result `none`.
* `time.Unix(ts, 0).Format("2006-01-02")` depends on the time zone of the
  process; it is a parameter `formatDate` of `parseHistory`.
-/

namespace CodexStats

/-! ## Strings, machine integers -/

/-- A Go string: a sequence of bytes. -/
abbrev GoString := List (Fin 256)

/-- The Go string of an ASCII literal. -/
def ascii (s : String) : GoString := s.toList.map (fun c => Fin.ofNat c.toNat)

/-- Two's-complement wrap-around of an integer into the `int64` range. -/
def wrapInt64 (x : Int) : Int := (x + 9223372036854775808) % 18446744073709551616 - 9223372036854775808

/-- A Go `int64`. -/
abbrev Int64 := { x : Int // -9223372036854775808 ≤ x ∧ x < 9223372036854775808 }

/-- The `int64` holding (the wrap-around of) an integer. -/
def Int64.ofInt (x : Int) : Int64 :=
  ⟨wrapInt64 x, by unfold wrapInt64; constructor <;> omega⟩

/-- Go's `+` on `int64`: addition modulo `2^64`. -/
def Int64.add (a b : Int64) : Int64 := Int64.ofInt (a.val + b.val)

/-! ## Line-delimited input -/

/-- One line of a line-delimited file: the number of bytes of the line as
`bufio.ScanLines` delivers it, whether a carriage return that `ScanLines`
drops follows them (the line ends in CR LF, or in CR at the end of the file,
rather than in a bare line feed), and the outcome of `json.Unmarshal` on the
line (`none`: an error). -/
structure Line (α : Type) where
  bytes : Nat
  crlf : Bool
  decoded : Option α

/-- The number of bytes of a line before its line feed: the carriage return of
a CR LF terminator is among them.  The scanner has to hold all of them in its
buffer before it finds the line feed (`ScanLines` drops the carriage return
only afterwards). -/
def Line.size {α : Type} (l : Line α) : Nat := l.bytes + (if l.crlf then 1 else 0)

/-- The `max` argument of `scanner.Buffer(buf, 10*1024*1024)`. -/
def maxTokenSize : Nat := 10 * 1024 * 1024

/-- The lines the loop `for scanner.Scan() { ... }` visits.  `Scan` returns
false, for good, at the first line that does not fit the buffer together with
its line feed, that is with `maxTokenSize` or more bytes before the line feed
(`bufio.ErrTooLong`), and the callers never consult `scanner.Err()`. -/
def scanLines {α : Type} (lines : List (Line α)) : List (Line α) :=
  lines.takeWhile (fun l => decide (l.size < maxTokenSize))

/-! ## Session transcripts: `parseSessionTokens` -/

structure TokenUsage where
  InputTokens : Int64
  CachedInputTokens : Int64
  OutputTokens : Int64
  ReasoningOutputTokens : Int64
  TotalTokens : Int64
deriving DecidableEq

structure TokenInfo where
  TotalTokenUsage : TokenUsage
deriving DecidableEq

structure TokenPayload where
  Type_ : GoString
  Info : Option TokenInfo
deriving DecidableEq

structure EventMsg where
  Type_ : GoString
  Payload : TokenPayload
deriving DecidableEq

/-- The zero value `var tokens TokenUsage`. -/
def TokenUsage.zero : TokenUsage :=
  ⟨Int64.ofInt 0, Int64.ofInt 0, Int64.ofInt 0, Int64.ofInt 0, Int64.ofInt 0⟩

/-- The body of the scan loop of `parseSessionTokens` for one delivered line. -/
def sessionLine (tokens : TokenUsage) (l : Line EventMsg) : TokenUsage :=
  match l.decoded with
  | none => tokens
  | some event =>
    if event.Type_ = ascii "event_msg" ∧ event.Payload.Type_ = ascii "token_count" then
      match event.Payload.Info with
      | some info =>
        let usage := info.TotalTokenUsage
        { InputTokens := usage.InputTokens
          CachedInputTokens := usage.CachedInputTokens
          OutputTokens := usage.OutputTokens
          ReasoningOutputTokens := usage.ReasoningOutputTokens
          TotalTokens := usage.TotalTokens }
      | none => tokens
    else tokens

/-- Model of `parseSessionTokens`; the argument is the file at `sessionFile`,
`none` when `os.Open` fails. -/
def parseSessionTokens (sessionFile : Option (List (Line EventMsg))) : TokenUsage :=
  match sessionFile with
  | none => TokenUsage.zero
  | some lines => (scanLines lines).foldl sessionLine TokenUsage.zero

/-- The token-usage snapshot a line carries: the line decodes to an event with
type "event_msg", payload.type "token_count" and info present. -/
def snapshotOf (l : Line EventMsg) : Option TokenUsage :=
  match l.decoded with
  | none => none
  | some event =>
    if event.Type_ = ascii "event_msg" ∧ event.Payload.Type_ = ascii "token_count" then
      event.Payload.Info.map (fun info => info.TotalTokenUsage)
    else none

/-- The last snapshot of a sequence of lines, all-zero when there is none
(the specification's "last token_count snapshot found in the file"). -/
def lastSnapshot (lines : List (Line EventMsg)) : TokenUsage :=
  ((lines.filterMap snapshotOf).getLast?).getD TokenUsage.zero

/-! ## Maps -/

/-- Entry list of a map after `m[k] = v`. -/
def setEntry {V : Type} (k : GoString) (v : V) : List (GoString × V) → List (GoString × V)
  | [] => [(k, v)]
  | (k', v') :: rest =>
    if k < k' then (k, v) :: (k', v') :: rest
    else if k = k' then (k, v) :: rest
    else (k', v') :: setEntry k v rest

/-- A Go `map[string]V`: its entries, in increasing order of the keys. -/
structure GoMap (V : Type) where
  entries : List (GoString × V)
  sorted : (entries.map Prod.fst).Sorted (· < ·)

instance {V : Type} [DecidableEq V] : DecidableEq (GoMap V) := fun a b =>
  decidable_of_iff (a.entries = b.entries) (by cases a; cases b; simp)

/-- The map `make(map[string]V)`. -/
def GoMap.empty {V : Type} : GoMap V := ⟨[], List.sorted_nil⟩

/-- The keys of a map. -/
def GoMap.keys {V : Type} (m : GoMap V) : List GoString := m.entries.map Prod.fst

/-- The number of entries, `len(m)`. -/
def GoMap.len {V : Type} (m : GoMap V) : Nat := m.entries.length

/-- The lookup `v, ok := m[k]`. -/
def GoMap.get? {V : Type} (m : GoMap V) (k : GoString) : Option V :=
  (m.entries.find? (fun e => decide (e.1 = k))).map Prod.snd

/-- The assignment `m[k] = v`. -/
def GoMap.set {V : Type} (m : GoMap V) (k : GoString) (v : V) : GoMap V :=
  ⟨setEntry k v m.entries, by
    have key : ∀ l : List (GoString × V), (l.map Prod.fst).Sorted (· < ·) →
        ((setEntry k v l).map Prod.fst).Sorted (· < ·) ∧
        ∀ x ∈ (setEntry k v l).map Prod.fst, x = k ∨ x ∈ l.map Prod.fst := by
      intro l
      induction l with
      | nil => intro _; simp [setEntry]
      | cons e rest ih =>
        obtain ⟨k', v'⟩ := e
        intro hs
        have hs' := List.sorted_cons.mp hs
        simp only [List.map_cons] at hs'
        by_cases h1 : k < k'
        · simp only [setEntry, h1, if_true, List.map_cons]
          refine ⟨List.sorted_cons.mpr ⟨?_, hs⟩, ?_⟩
          · intro b hb
            rcases List.mem_cons.mp hb with rfl | hb
            · exact h1
            · exact lt_trans h1 (hs'.1 b hb)
          · intro x hx
            rcases List.mem_cons.mp hx with rfl | hx
            · exact Or.inl rfl
            · exact Or.inr hx
        · by_cases h2 : k = k'
          · subst h2
            simp only [setEntry, h1, if_false, if_true, List.map_cons]
            exact ⟨hs, fun x hx => Or.inr hx⟩
          · simp only [setEntry, h1, h2, if_false, List.map_cons]
            obtain ⟨ih1, ih2⟩ := ih hs'.2
            refine ⟨List.sorted_cons.mpr ⟨?_, ih1⟩, ?_⟩
            · intro b hb
              rcases ih2 b hb with rfl | hb
              · exact lt_of_le_of_ne (not_lt.mp h1) (Ne.symm h2)
              · exact hs'.1 b hb
            · intro x hx
              rcases List.mem_cons.mp hx with rfl | hx
              · exact Or.inr (List.mem_cons_self _ _)
              · rcases ih2 x hx with h | h
                · exact Or.inl h
                · exact Or.inr (List.mem_cons_of_mem _ h)
    exact (key m.entries m.sorted).1⟩

/-- The update `m[k] += c` of a `map[string]int` without wrap-around (a missing
key reads as 0): for the counter `dailyCounts[date]++` of `parseHistory`, which
counts lines of one file and stays below `2^63`. -/
def GoMap.addTo (m : GoMap Int) (k : GoString) (c : Int) : GoMap Int :=
  m.set k ((m.get? k).getD 0 + c)

/-- A sequence of updates `m[k] += c`, one for each pair `(k, c)`. -/
def GoMap.addAll (m : GoMap Int) (l : List (GoString × Int)) : GoMap Int :=
  l.foldl (fun m e => m.addTo e.1 e.2) m

/-- The update `m[k] += c` of a `map[string]int` with Go's addition on `int`,
which wraps around (a missing key reads as 0). -/
def GoMap.addWrap (m : GoMap Int) (k : GoString) (c : Int) : GoMap Int :=
  m.set k (wrapInt64 ((m.get? k).getD 0 + c))

/-- A sequence of wrapping updates `m[k] += c`, one for each pair `(k, c)`. -/
def GoMap.addWrapAll (m : GoMap Int) (l : List (GoString × Int)) : GoMap Int :=
  l.foldl (fun m e => m.addWrap e.1 e.2) m

/-- The sum of all values of a `map[string]int`. -/
def GoMap.sumValues (m : GoMap Int) : Int := (m.entries.map Prod.snd).sum

/-! ## History log: `parseHistory` -/

structure HistoryEntry where
  SessionID : GoString
  Timestamp : Int64
  Text : GoString
deriving DecidableEq

/-- The body of the scan loop of `parseHistory` for one delivered line.
`formatDate ts` stands for `time.Unix(ts, 0).Format("2006-01-02")`, which
depends on the time zone of the process. -/
def historyLine (formatDate : Int64 → GoString) (dailyCounts : GoMap Int)
    (l : Line HistoryEntry) : GoMap Int :=
  match l.decoded with
  | none => dailyCounts
  | some entry =>
    if entry.Timestamp.val > 0 then dailyCounts.addTo (formatDate entry.Timestamp) 1
    else dailyCounts

/-- Model of `parseHistory`; the argument is the file at `historyFile`, `none`
when `os.Open` fails. -/
def parseHistory (formatDate : Int64 → GoString)
    (historyFile : Option (List (Line HistoryEntry))) : GoMap Int :=
  match historyFile with
  | none => GoMap.empty
  | some lines => (scanLines lines).foldl (historyLine formatDate) GoMap.empty

/-- A history line counts: it decodes and carries a timestamp `> 0`. -/
def countsAsMessage (l : Line HistoryEntry) : Bool :=
  match l.decoded with
  | none => false
  | some entry => decide (entry.Timestamp.val > 0)

/-- The date bucket of a history line that counts. -/
def dateOfLine (formatDate : Int64 → GoString) (l : Line HistoryEntry) : Option GoString :=
  match l.decoded with
  | none => none
  | some entry => if entry.Timestamp.val > 0 then some (formatDate entry.Timestamp) else none

/-! ## Session hierarchy: `collectTokenStats` -/

structure MonthlyTokens where
  InputTokens : Int64
  CachedInputTokens : Int64
  OutputTokens : Int64
  ReasoningOutputTokens : Int64
  TotalTokens : Int64
  SessionCount : Int
deriving DecidableEq

/-- The zero value `&MonthlyTokens{}`. -/
def MonthlyTokens.zero : MonthlyTokens :=
  ⟨Int64.ofInt 0, Int64.ofInt 0, Int64.ofInt 0, Int64.ofInt 0, Int64.ofInt 0, 0⟩

/-- An entry of a day directory: its name and what opening and reading the
path gives (`none` when `os.Open` fails). -/
structure FileEntry where
  name : GoString
  content : Option (List (Line EventMsg))

/-- An entry of a month directory; `files` is the result of `os.ReadDir` on
it (`none`: an error). -/
structure DayEntry where
  name : GoString
  isDir : Bool
  files : Option (List FileEntry)

/-- An entry of a year directory. -/
structure MonthEntry where
  name : GoString
  isDir : Bool
  days : Option (List DayEntry)

/-- An entry of the sessions directory. -/
structure YearEntry where
  name : GoString
  isDir : Bool
  months : Option (List MonthEntry)

/-- Lines 188 to 193 of `collectTokenStats`: the five `+=` on the token sums
of the entry `*monthlyTokens[monthKey]` and its `SessionCount++`. -/
def MonthlyTokens.addSession (t : MonthlyTokens) (tokens : TokenUsage) : MonthlyTokens :=
  { InputTokens := t.InputTokens.add tokens.InputTokens
    CachedInputTokens := t.CachedInputTokens.add tokens.CachedInputTokens
    OutputTokens := t.OutputTokens.add tokens.OutputTokens
    ReasoningOutputTokens := t.ReasoningOutputTokens.add tokens.ReasoningOutputTokens
    TotalTokens := t.TotalTokens.add tokens.TotalTokens
    SessionCount := t.SessionCount + 1 }

/-- Lines 186 to 193 of `collectTokenStats`: parse one session file and fold
its snapshot into the entry of `monthKey`.  `monthlyTokens[monthKey]` is a
pointer; dereferencing it when the key is missing panics. -/
def foldSessionFile (monthlyTokens : GoMap MonthlyTokens) (monthKey : GoString)
    (sessionFile : Option (List (Line EventMsg))) : Option (GoMap MonthlyTokens) :=
  let tokens := parseSessionTokens sessionFile
  match monthlyTokens.get? monthKey with
  | none => none
  | some t => some (monthlyTokens.set monthKey (t.addSession tokens))

/-- The body of the loop over the entries of a day directory. -/
def fileStep (monthKey : GoString) (monthlyTokens : GoMap MonthlyTokens)
    (fileEntry : FileEntry) : Option (GoMap MonthlyTokens) :=
  if (ascii ".jsonl").isSuffixOf fileEntry.name then
    foldSessionFile monthlyTokens monthKey fileEntry.content
  else some monthlyTokens

/-- The body of the loop over the entries of a month directory. -/
def dayStep (monthKey : GoString) (monthlyTokens : GoMap MonthlyTokens)
    (dayEntry : DayEntry) : Option (GoMap MonthlyTokens) :=
  if dayEntry.isDir then
    match dayEntry.files with
    | none => some monthlyTokens
    | some files => files.foldlM (fileStep monthKey) monthlyTokens
  else some monthlyTokens

/-- The guard `if monthlyTokens[monthKey] == nil { monthlyTokens[monthKey] = &MonthlyTokens{} }`. -/
def ensureMonth (monthlyTokens : GoMap MonthlyTokens) (monthKey : GoString) :
    GoMap MonthlyTokens :=
  match monthlyTokens.get? monthKey with
  | none => monthlyTokens.set monthKey MonthlyTokens.zero
  | some _ => monthlyTokens

/-- The body of the loop over the entries of a year directory. -/
def monthStep (year : GoString) (monthlyTokens : GoMap MonthlyTokens)
    (monthEntry : MonthEntry) : Option (GoMap MonthlyTokens) :=
  if monthEntry.isDir then
    let monthKey := year ++ ascii "-" ++ monthEntry.name
    let monthlyTokens := ensureMonth monthlyTokens monthKey
    match monthEntry.days with
    | none => some monthlyTokens
    | some days => days.foldlM (dayStep monthKey) monthlyTokens
  else some monthlyTokens

/-- The body of the loop over the entries of the sessions directory. -/
def yearStep (monthlyTokens : GoMap MonthlyTokens) (yearEntry : YearEntry) :
    Option (GoMap MonthlyTokens) :=
  if yearEntry.isDir then
    match yearEntry.months with
    | none => some monthlyTokens
    | some months => months.foldlM (monthStep yearEntry.name) monthlyTokens
  else some monthlyTokens

/-- Model of `collectTokenStats`; the argument is the result of
`os.ReadDir(sessionsDir)`. -/
def collectTokenStats (sessionsDir : Option (List YearEntry)) : Option (GoMap MonthlyTokens) :=
  match sessionsDir with
  | none => some GoMap.empty
  | some years => years.foldlM yearStep GoMap.empty

/-- Folding a sequence of enumerated session files, each with its year-month
key, with the per-file step. -/
def foldSessionFiles (monthlyTokens : GoMap MonthlyTokens)
    (files : List (GoString × Option (List (Line EventMsg)))) : Option (GoMap MonthlyTokens) :=
  files.foldlM (fun mt f => foldSessionFile mt f.1 f.2) monthlyTokens

/-- All five token fields of a snapshot are non-negative. -/
def TokenUsage.NonNeg (u : TokenUsage) : Prop :=
  0 ≤ u.InputTokens.val ∧ 0 ≤ u.CachedInputTokens.val ∧ 0 ≤ u.OutputTokens.val ∧
    0 ≤ u.ReasoningOutputTokens.val ∧ 0 ≤ u.TotalTokens.val

/-- Adding the snapshot `u` to the entry `t` does not leave the `int64` range
in any of the five sums. -/
def MonthlyTokens.Fits (t : MonthlyTokens) (u : TokenUsage) : Prop :=
  t.InputTokens.val + u.InputTokens.val < 9223372036854775808 ∧
    t.CachedInputTokens.val + u.CachedInputTokens.val < 9223372036854775808 ∧
    t.OutputTokens.val + u.OutputTokens.val < 9223372036854775808 ∧
    t.ReasoningOutputTokens.val + u.ReasoningOutputTokens.val < 9223372036854775808 ∧
    t.TotalTokens.val + u.TotalTokens.val < 9223372036854775808

/-- Each of the five token sums and the session count of `a` is at most that
of `b`. -/
def MonthlyTokens.le (a b : MonthlyTokens) : Prop :=
  a.InputTokens.val ≤ b.InputTokens.val ∧ a.CachedInputTokens.val ≤ b.CachedInputTokens.val ∧
    a.OutputTokens.val ≤ b.OutputTokens.val ∧
    a.ReasoningOutputTokens.val ≤ b.ReasoningOutputTokens.val ∧
    a.TotalTokens.val ≤ b.TotalTokens.val ∧ a.SessionCount ≤ b.SessionCount

/-- The five token sums of `a` and `b` are the same. -/
def MonthlyTokens.sameTokens (a b : MonthlyTokens) : Prop :=
  a.InputTokens = b.InputTokens ∧ a.CachedInputTokens = b.CachedInputTokens ∧
    a.OutputTokens = b.OutputTokens ∧ a.ReasoningOutputTokens = b.ReasoningOutputTokens ∧
    a.TotalTokens = b.TotalTokens

/-! ## Floating point -/

/-- A finite `float64`, the number `man * 2^exp`: zero is `⟨0, 0⟩`, any other
value has `2^52 ≤ |man| < 2^53`.  Subnormals, infinities and NaN do not arise
from the conversions and the division of `calculateStats`. -/
structure Float64 where
  man : Int
  exp : Int
deriving DecidableEq

/-- The rational number a `float64` stands for. -/
def Float64.toRat (x : Float64) : ℚ := (x.man : ℚ) * (2 : ℚ) ^ x.exp

def bitLenAux : Nat → Nat → Nat
  | 0, _ => 0
  | fuel + 1, n => if n = 0 then 0 else bitLenAux fuel (n / 2) + 1

/-- The number of binary digits of `n`. -/
def bitLen (n : Nat) : Nat := bitLenAux n n

/-- The exponent `e` of the positive rational `n / d`: `2^e ≤ n / d < 2^(e+1)`. -/
def ratioExponent (n d : Nat) : Int :=
  if d ≤ n then (bitLen (n / d) : Int) - 1 else -(bitLen ((d - 1) / n) : Int)

/-- The integer nearest to `num / den`, the even one of two equally near. -/
def roundHalfEven (num den : Nat) : Nat :=
  let q := num / den
  let r := num % den
  if 2 * r < den then q else if den < 2 * r then q + 1 else if q % 2 = 0 then q else q + 1

/-- The `float64` nearest to `± n / d` (ties to even), for `n` and `d`
positive; zero when `n = 0`.  The quotient is scaled by a power of two into
`[2^52, 2^53)`, rounded to an integer, and renormalised when the rounding
reaches `2^53`.  (`d = 0` is not a finite value in Go; it is mapped to zero
here and no caller passes it.) -/
def roundRatio (neg : Bool) (n d : Nat) : Float64 :=
  if n = 0 ∨ d = 0 then ⟨0, 0⟩
  else
    let s : Int := 52 - ratioExponent n d
    let m := roundHalfEven (n * 2 ^ s.toNat) (d * 2 ^ (-s).toNat)
    let mx : Nat × Int := if m = 2 ^ 53 then (2 ^ 52, 1 - s) else (m, -s)
    ⟨if neg then -(mx.1 : Int) else (mx.1 : Int), mx.2⟩

/-- The conversion `float64(x)` of an `int`. -/
def Float64.ofInt (x : Int) : Float64 := roundRatio (decide (x < 0)) x.natAbs 1

/-- The division `a / b` of two `float64`. -/
def Float64.div (a b : Float64) : Float64 :=
  roundRatio (decide (a.man < 0) != decide (b.man < 0))
    (a.man.natAbs * 2 ^ (a.exp - b.exp).toNat) (b.man.natAbs * 2 ^ (b.exp - a.exp).toNat)

/-! ## Statistics: `calculateStats` -/

structure dayCount where
  date : GoString
  count : Int
deriving DecidableEq

/-- The comparison passed to `sort.Slice`. -/
def less (a b : dayCount) : Prop := a.count > b.count

/-- What the Go run time chooses during one call of `calculateStats`: the
order of each `range` over a map and the result of `sort.Slice`. -/
structure Env where
  rangeDates : List (GoString × Int) → List (GoString × Int)
  rangeTotals : List (GoString × Int) → List (GoString × Int)
  rangeMonthly : List (GoString × Int) → List (GoString × Int)
  rangeDayCounts : List (GoString × Int) → List (GoString × Int)
  rangeMonths : List (GoString × Int) → List (GoString × Int)
  sortSlice : List dayCount → List dayCount

/-- The contract of the run time: `range` visits every entry once, in some
order; `sort.Slice` permutes the slice so that no element is `less` than one
before it. -/
structure Env.Valid (env : Env) : Prop where
  rangeDates : ∀ l, (env.rangeDates l).Perm l
  rangeTotals : ∀ l, (env.rangeTotals l).Perm l
  rangeMonthly : ∀ l, (env.rangeMonthly l).Perm l
  rangeDayCounts : ∀ l, (env.rangeDayCounts l).Perm l
  rangeMonths : ∀ l, (env.rangeMonths l).Perm l
  sortPerm : ∀ l, (env.sortSlice l).Perm l
  sortSorted : ∀ l, (env.sortSlice l).Pairwise (fun a b => ¬ less b a)

/-- The result of `sort.Strings`.  Strings that compare equal are the same
string, so the result does not depend on the sorting algorithm. -/
def sortStrings (l : List GoString) : List GoString := l.insertionSort (· ≤ ·)

/-- The slice expression `s[:n]`, which panics when `n > len(s)`. -/
def slicePrefix (s : GoString) (n : Nat) : Option GoString :=
  if n ≤ s.length then some (s.take n) else none

structure Stats where
  TotalMessages : Int
  ActiveDays : Int
  DateRange : GoString × GoString
  MonthlyMessages : GoMap Int
  TopDays : List (GoString × Int)
  PeakDay : Option (GoString × Int)
  PeakMonth : Option (GoString × Int)
  AvgPerDay : Float64
  DailyCounts : GoMap Int
deriving DecidableEq

/-- The zero value `var stats Stats`; a `[2]interface{}` left at `[nil, nil]`
is `none` and a nil map is the empty map. -/
def Stats.zero : Stats :=
  { TotalMessages := 0, ActiveDays := 0, DateRange := ([], []), MonthlyMessages := GoMap.empty,
    TopDays := [], PeakDay := none, PeakMonth := none, AvgPerDay := ⟨0, 0⟩,
    DailyCounts := GoMap.empty }

/-- The body of the monthly aggregation loop (lines 280 to 283). -/
def monthlyStep (monthlyMessages : GoMap Int) (e : GoString × Int) : Option (GoMap Int) :=
  match slicePrefix e.1 7 with
  | none => none
  | some monthKey => some (monthlyMessages.addWrap monthKey e.2)

/-- The body of the peak month loop (lines 308 to 313); the state is
`(peakMonth, maxMonthCount)`. -/
def peakStep (st : Option (GoString × Int) × Int) (e : GoString × Int) :
    Option (GoString × Int) × Int :=
  if e.2 > st.2 then (some (e.1, e.2), e.2) else st

/-- Model of `calculateStats`. -/
def calculateStats (env : Env) (dailyCounts : GoMap Int) : Option Stats :=
  if dailyCounts.len = 0 then some Stats.zero
  else do
    let dates := sortStrings ((env.rangeDates dailyCounts.entries).map Prod.fst)
    let totalMessages :=
      (env.rangeTotals dailyCounts.entries).foldl (fun total e => wrapInt64 (total + e.2)) 0
    let monthlyMessages ← (env.rangeMonthly dailyCounts.entries).foldlM monthlyStep GoMap.empty
    let dayCounts := env.sortSlice
      ((env.rangeDayCounts dailyCounts.entries).map (fun e => dayCount.mk e.1 e.2))
    let topDays := (dayCounts.take 10).map (fun d => (d.date, d.count))
    let first ← dayCounts.head?
    let peakDay := (first.date, first.count)
    let peak := (env.rangeMonths monthlyMessages.entries).foldl peakStep (none, 0)
    let firstDate ← dates.head?
    let lastDate ← dates.getLast?
    pure
      { TotalMessages := totalMessages
        ActiveDays := (dailyCounts.len : Int)
        DateRange := (firstDate, lastDate)
        MonthlyMessages := monthlyMessages
        TopDays := topDays
        PeakDay := some peakDay
        PeakMonth := peak.1
        AvgPerDay := (Float64.ofInt totalMessages).div (Float64.ofInt (dailyCounts.len : Int))
        DailyCounts := dailyCounts }

/-- The slice handed to `sort.Slice` and what it holds afterwards. -/
def sortedDays (env : Env) (dailyCounts : GoMap Int) : List dayCount :=
  env.sortSlice ((env.rangeDayCounts dailyCounts.entries).map (fun e => dayCount.mk e.1 e.2))

/-- The monthly re-bucketing: every date adds its count to the bucket of its
first 7 bytes, with Go's wrapping addition on `int`. -/
def monthlyOfDays (dailyCounts : GoMap Int) : GoMap Int :=
  GoMap.empty.addWrapAll (dailyCounts.entries.map (fun e => (e.1.take 7, e.2)))

/-- The sum of the counts of all dates whose first 7 bytes are `month`. -/
def monthSum (dailyCounts : GoMap Int) (month : GoString) : Int :=
  ((dailyCounts.entries.filter (fun e => decide (e.1.take 7 = month))).map Prod.snd).sum

/-- The state `(peakMonth, maxMonthCount)` after the peak month loop. -/
def peakOf (env : Env) (monthlyMessages : GoMap Int) : Option (GoString × Int) × Int :=
  (env.rangeMonths monthlyMessages.entries).foldl peakStep (none, 0)

/-! ## Instances of the environment and sample inputs -/

/-- Two decimal digits. -/
def pad2 (n : Nat) : GoString := [Fin.ofNat (48 + n / 10 % 10), Fin.ofNat (48 + n % 10)]

/-- The formatter `time.Unix(ts, 0).Format("2006-01-02")` of a process whose
zone is UTC, for the years 0000 to 9999 (proleptic Gregorian calendar). -/
def formatDateUTC (ts : Int64) : GoString :=
  let z : Int := ts.val / 86400 + 719468
  let era : Int := z / 146097
  let doe : Int := z % 146097
  let yoe : Int := (doe - doe / 1460 + doe / 36524 - doe / 146096) / 365
  let doy : Int := doe - (365 * yoe + yoe / 4 - yoe / 100)
  let mp : Int := (5 * doy + 2) / 153
  let d : Int := doy - (153 * mp + 2) / 5 + 1
  let m : Int := if mp < 10 then mp + 3 else mp - 9
  let y : Int := yoe + era * 400 + (if m ≤ 2 then 1 else 0)
  pad2 (y.toNat / 100) ++ pad2 (y.toNat % 100) ++ ascii "-" ++ pad2 m.toNat ++ ascii "-" ++ pad2 d.toNat

/-- A stable sort by decreasing count, as `sort.Slice` performs on slices of
at most 12 elements (insertion sort). -/
def stableSort (l : List dayCount) : List dayCount :=
  l.insertionSort (fun a b => b.count ≤ a.count)

/-- A run time whose `range` loops visit the entries in increasing key order. -/
def envForward : Env := ⟨id, id, id, id, id, stableSort⟩

/-- A run time whose `range` loops visit the entries in decreasing key order. -/
def envBackward : Env :=
  ⟨List.reverse, List.reverse, List.reverse, List.reverse, List.reverse, stableSort⟩

/-- The map with the given entries, built by assignments. -/
def mapOf {V : Type} (l : List (GoString × V)) : GoMap V :=
  l.foldl (fun m e => m.set e.1 e.2) GoMap.empty

/-- A line of `n` bytes, ended by a bare line feed, holding a `token_count`
event with the five given fields in its snapshot. -/
def tokenCountLine (n : Nat) (input cached output reasoning total : Int) : Line EventMsg :=
  { bytes := n
    crlf := false
    decoded := some
      { Type_ := ascii "event_msg"
        Payload :=
          { Type_ := ascii "token_count"
            Info := some ⟨⟨Int64.ofInt input, Int64.ofInt cached, Int64.ofInt output,
              Int64.ofInt reasoning, Int64.ofInt total⟩⟩ } } }

/-- A line of `n` bytes on which `json.Unmarshal` fails. -/
def brokenLine {α : Type} (n : Nat) : Line α := { bytes := n, crlf := false, decoded := none }

/-- A history line of `n` bytes that decodes to a record with timestamp `ts`. -/
def historyRecord (n : Nat) (ts : Int) : Line HistoryEntry :=
  { bytes := n, crlf := false, decoded := some ⟨ascii "s", Int64.ofInt ts, ascii "hi"⟩ }

/-- A monthly entry given by plain integers. -/
def monthlyOf (input cached output reasoning total sessions : Int) : MonthlyTokens :=
  ⟨Int64.ofInt input, Int64.ofInt cached, Int64.ofInt output, Int64.ofInt reasoning,
    Int64.ofInt total, sessions⟩

/-- A session file whose second line, with 11,000,000 bytes before its line
feed, is longer than the scanner's buffer. -/
def overlongSession : List (Line EventMsg) :=
  [tokenCountLine 80 1 0 9 0 10, tokenCountLine 11000000 2 0 23 0 25,
    tokenCountLine 80 3 0 37 0 40]

/-- A history log whose second line, with 11,000,000 bytes before its line
feed, is longer than the scanner's buffer. -/
def overlongHistory : List (Line HistoryEntry) :=
  [historyRecord 60 1710460800, historyRecord 11000000 1710460900, historyRecord 60 1711584000]

/-- A session file without any token_count event. -/
def quietSession : List (Line EventMsg) := [brokenLine 5]

/-- A sessions directory with one month holding two session files. -/
def sampleSessions : List YearEntry :=
  [ { name := ascii "2024", isDir := true
      months := some
        [ { name := ascii "03", isDir := true
            days := some
              [ { name := ascii "15", isDir := true
                  files := some
                    [ { name := ascii "a.jsonl"
                        content := some [tokenCountLine 80 1 0 9 0 10,
                          tokenCountLine 80 3 0 37 0 40] },
                      { name := ascii "notes.txt"
                        content := some [tokenCountLine 80 5 5 5 5 5] },
                      { name := ascii "b.jsonl", content := none } ] } ] } ] } ]

/-- An aggregate with one month: 10 input tokens and 10 tokens in total over
one session. -/
def sampleAggregate : GoMap MonthlyTokens := mapOf [(ascii "2024-03", monthlyOf 10 0 0 0 10 1)]

/-- An aggregate with one month whose total is `2^62`. -/
def largeAggregate : GoMap MonthlyTokens :=
  mapOf [(ascii "2024-03", monthlyOf 0 0 0 0 4611686018427387904 1)]

/-- Three enumerated session files of two months. -/
def sampleFiles : List (GoString × Option (List (Line EventMsg))) :=
  [ (ascii "2024-03", some [tokenCountLine 80 1 0 9 0 10, tokenCountLine 80 3 0 37 0 40]),
    (ascii "2024-04", some [tokenCountLine 80 7 1 2 1 9]),
    (ascii "2024-03", none) ]

/-- An aggregate holding the keys of two months, as the guard of
`collectTokenStats` creates them. -/
def twoMonths : GoMap MonthlyTokens :=
  ensureMonth (ensureMonth GoMap.empty (ascii "2024-03")) (ascii "2024-04")

/-- Three days of January 2024 with 5, 9 and 9 messages. -/
def sampleDays : GoMap Int :=
  mapOf [(ascii "2024-01-01", 5), (ascii "2024-01-02", 9), (ascii "2024-01-03", 9)]

/-- Two days of March 2024 with 2 and 3 messages. -/
def marchDays : GoMap Int := mapOf [(ascii "2024-03-15", 2), (ascii "2024-03-28", 3)]

/-- Two days with the same count, in two months with the same total. -/
def tiedDays : GoMap Int := mapOf [(ascii "2024-01-01", 5), (ascii "2024-02-01", 5)]

/-- Three days with 4 messages in total. -/
def thirdsDays : GoMap Int :=
  mapOf [(ascii "2024-01-01", 1), (ascii "2024-01-02", 1), (ascii "2024-01-03", 2)]

/-- Two days with 4 and 6 messages. -/
def evenDays : GoMap Int := mapOf [(ascii "2024-01-01", 4), (ascii "2024-01-02", 6)]

/-- Two days of one month with `2^62` messages each. -/
def overflowDays : GoMap Int :=
  mapOf [(ascii "2024-01-01", 4611686018427387904), (ascii "2024-01-02", 4611686018427387904)]

/-- A session file whose second line has 10 MiB - 1 bytes and ends in CR LF:
10 MiB bytes before the line feed. -/
def crlfSession : List (Line EventMsg) :=
  [tokenCountLine 80 1 0 9 0 10,
    { tokenCountLine 10485759 2 0 23 0 25 with crlf := true },
    tokenCountLine 80 3 0 37 0 40]

/-- A history log whose second line has 10 MiB - 1 bytes and ends in CR LF. -/
def crlfHistory : List (Line HistoryEntry) :=
  [historyRecord 60 1710460800, { historyRecord 10485759 1710460900 with crlf := true },
    historyRecord 60 1711584000]

/-- A map with a key that is no date. -/
def shortKeyDays : GoMap Int := mapOf [(ascii "x", 1)]

/-! # Theorems -/

/-! ## Machine integers -/

theorem wrapInt64_of_inRange (x : Int)
    (h : -9223372036854775808 ≤ x ∧ x < 9223372036854775808) : wrapInt64 x = x := by
  unfold wrapInt64
  omega

theorem Int64.add_val (a b : Int64) : (a.add b).val = wrapInt64 (a.val + b.val) := rfl

theorem Int64.add_zero (a : Int64) : a.add (Int64.ofInt 0) = a := by
  apply Subtype.ext
  have h0 : (Int64.ofInt 0).val = 0 := by decide
  rw [Int64.add_val, h0, Int.add_zero]
  exact wrapInt64_of_inRange _ a.property

theorem wrapInt64_add_wrap (x y : Int) : wrapInt64 (wrapInt64 x + y) = wrapInt64 (x + y) := by
  unfold wrapInt64
  omega

theorem Int64.add_right_comm (a b c : Int64) : (a.add b).add c = (a.add c).add b := by
  apply Subtype.ext
  simp only [Int64.add_val, wrapInt64_add_wrap]
  congr 1
  omega

/-! ## Maps -/

theorem find_setEntry {V : Type} (k k' : GoString) (v : V) (l : List (GoString × V)) :
    ((setEntry k v l).find? (fun e => decide (e.1 = k'))).map Prod.snd
      = if k' = k then some v else (l.find? (fun e => decide (e.1 = k'))).map Prod.snd := by
  induction l with
  | nil =>
    by_cases h : k' = k
    · subst h; simp [setEntry]
    · have h' : ¬ k = k' := fun e => h e.symm
      simp [setEntry, h, h']
  | cons e rest ih =>
    obtain ⟨k0, v0⟩ := e
    by_cases h1 : k < k0
    · by_cases h : k' = k
      · subst h; simp [setEntry, h1]
      · have h' : ¬ k = k' := fun e => h e.symm
        simp [setEntry, h1, h, h', List.find?_cons]
    · by_cases h2 : k = k0
      · subst h2
        by_cases h : k' = k
        · subst h; simp [setEntry]
        · have h' : ¬ k = k' := fun e => h e.symm
          simp [setEntry, h, h', List.find?_cons]
      · by_cases h : k' = k
        · subst h
          have h2' : ¬ k0 = k' := fun e => h2 e.symm
          simp only [setEntry, h1, h2, if_false, List.find?_cons, h2', decide_False]
          rw [ih]; simp
        · by_cases h3 : k0 = k'
          · subst h3; simp [setEntry, h1, h2, h, List.find?_cons]
          · simp only [setEntry, h1, h2, if_false, List.find?_cons, h3, decide_False]
            rw [ih]

theorem GoMap.get?_set {V : Type} (m : GoMap V) (k k' : GoString) (v : V) :
    (m.set k v).get? k' = if k' = k then some v else m.get? k' :=
  find_setEntry k k' v m.entries

theorem GoMap.get?_empty {V : Type} (k : GoString) : (GoMap.empty : GoMap V).get? k = none := rfl

theorem GoMap.get?_addTo (m : GoMap Int) (k k' : GoString) (c : Int) :
    (m.addTo k c).get? k' = if k' = k then some ((m.get? k).getD 0 + c) else m.get? k' := by
  unfold GoMap.addTo
  rw [GoMap.get?_set]

theorem find_eq_none_of_lt {V : Type} (k : GoString) (l : List (GoString × V))
    (h : ∀ x ∈ l.map Prod.fst, k < x) : l.find? (fun e => decide (e.1 = k)) = none := by
  rw [List.find?_eq_none]
  intro e he
  have := h e.1 (List.mem_map_of_mem _ he)
  simp only [decide_eq_true_eq]
  exact fun heq => absurd (heq ▸ this) (lt_irrefl _)

theorem find_some_mem {V : Type} (k : GoString) (v : V) (l : List (GoString × V))
    (h : (l.find? (fun e => decide (e.1 = k))).map Prod.snd = some v) : (k, v) ∈ l := by
  cases hf : l.find? (fun e => decide (e.1 = k)) with
  | none => rw [hf] at h; simp at h
  | some e =>
    rw [hf] at h
    have h1 := List.find?_some hf
    have h2 := List.mem_of_find?_eq_some hf
    simp only [decide_eq_true_eq] at h1
    simp only [Option.map_some', Option.some.injEq] at h
    obtain ⟨a, b⟩ := e
    simp only at h1 h
    subst h1; subst h
    exact h2

theorem mem_find_some {V : Type} (k : GoString) (v : V) (l : List (GoString × V))
    (hs : (l.map Prod.fst).Sorted (· < ·)) (h : (k, v) ∈ l) :
    (l.find? (fun e => decide (e.1 = k))).map Prod.snd = some v := by
  induction l with
  | nil => simp at h
  | cons e rest ih =>
    obtain ⟨k0, v0⟩ := e
    have hs' := List.sorted_cons.mp hs
    rcases List.mem_cons.mp h with heq | hmem
    · cases heq; simp [List.find?_cons]
    · have hlt : k0 < k := hs'.1 k (List.mem_map_of_mem Prod.fst hmem)
      have hne : ¬ k0 = k := ne_of_lt hlt
      simp only [List.find?_cons, hne, decide_False]
      exact ih hs'.2 hmem

theorem GoMap.get?_eq_some_iff {V : Type} (m : GoMap V) (k : GoString) (v : V) :
    m.get? k = some v ↔ (k, v) ∈ m.entries :=
  ⟨find_some_mem k v m.entries, mem_find_some k v m.entries m.sorted⟩

theorem GoMap.mem_keys_iff {V : Type} (m : GoMap V) (k : GoString) :
    k ∈ m.keys ↔ ∃ v, m.get? k = some v := by
  unfold GoMap.keys
  constructor
  · intro h
    obtain ⟨e, he, hk⟩ := List.mem_map.mp h
    refine ⟨e.2, (m.get?_eq_some_iff k e.2).mpr ?_⟩
    subst hk
    exact he
  · rintro ⟨v, hv⟩
    exact List.mem_map.mpr ⟨(k, v), (m.get?_eq_some_iff k v).mp hv, rfl⟩

theorem entries_eq_of_find_eq {V : Type} (l₁ l₂ : List (GoString × V))
    (h₁ : (l₁.map Prod.fst).Sorted (· < ·)) (h₂ : (l₂.map Prod.fst).Sorted (· < ·))
    (h : ∀ k v, (k, v) ∈ l₁ ↔ (k, v) ∈ l₂) : l₁ = l₂ := by
  have hp : l₁.Perm l₂ := by
    have n₁ : l₁.Nodup := List.Nodup.of_map Prod.fst (List.Sorted.nodup h₁)
    have n₂ : l₂.Nodup := List.Nodup.of_map Prod.fst (List.Sorted.nodup h₂)
    exact (List.perm_ext_iff_of_nodup n₁ n₂).mpr (fun e => h e.1 e.2)
  have s₁ : l₁.Sorted (fun a b => a.1 < b.1 ∨ a = b) :=
    (List.pairwise_map.mp h₁).imp (fun hab => Or.inl hab)
  have s₂ : l₂.Sorted (fun a b => a.1 < b.1 ∨ a = b) :=
    (List.pairwise_map.mp h₂).imp (fun hab => Or.inl hab)
  haveI : IsAntisymm (GoString × V) (fun a b => a.1 < b.1 ∨ a = b) :=
    ⟨fun a b hab hba => by
      rcases hab with hab | hab
      · rcases hba with hba | hba
        · exact absurd (lt_trans hab hba) (lt_irrefl _)
        · exact hba.symm
      · exact hab⟩
  exact List.eq_of_perm_of_sorted hp s₁ s₂

theorem GoMap.ext {V : Type} (m₁ m₂ : GoMap V) (h : ∀ k, m₁.get? k = m₂.get? k) : m₁ = m₂ := by
  have he : m₁.entries = m₂.entries := by
    apply entries_eq_of_find_eq _ _ m₁.sorted m₂.sorted
    intro k v
    rw [← GoMap.get?_eq_some_iff, ← GoMap.get?_eq_some_iff, h]
  cases m₁; cases m₂
  simp only at he
  subst he
  rfl

theorem sum_setEntry (k : GoString) (v : Int) (l : List (GoString × Int))
    (hs : (l.map Prod.fst).Sorted (· < ·)) :
    ((setEntry k v l).map Prod.snd).sum
      = (l.map Prod.snd).sum - ((l.find? (fun e => decide (e.1 = k))).map Prod.snd).getD 0 + v := by
  induction l with
  | nil => simp [setEntry]
  | cons e rest ih =>
    obtain ⟨k0, v0⟩ := e
    have hs' := List.sorted_cons.mp hs
    by_cases h1 : k < k0
    · have hnone : ((k0, v0) :: rest).find? (fun e => decide (e.1 = k)) = none := by
        apply find_eq_none_of_lt
        intro x hx
        rcases List.mem_cons.mp hx with rfl | hx
        · exact h1
        · exact lt_trans h1 (hs'.1 x hx)
      rw [hnone]
      simp only [setEntry, h1, if_true, List.map_cons, List.sum_cons, Option.map_none',
        Option.getD_none]
      omega
    · by_cases h2 : k = k0
      · subst h2
        simp only [setEntry, h1, if_false, if_true, List.map_cons, List.sum_cons, List.find?_cons,
          decide_True, Option.map_some', Option.getD_some]
        omega
      · have h2' : ¬ k0 = k := fun e => h2 e.symm
        simp only [setEntry, h1, h2, if_false, List.map_cons, List.sum_cons, List.find?_cons, h2',
          decide_False]
        rw [ih hs'.2]
        omega

theorem GoMap.sumValues_addTo (m : GoMap Int) (k : GoString) (c : Int) :
    (m.addTo k c).sumValues = m.sumValues + c := by
  unfold GoMap.addTo GoMap.sumValues GoMap.set GoMap.get?
  simp only
  rw [sum_setEntry k _ m.entries m.sorted]
  omega

theorem GoMap.addAll_cons (m : GoMap Int) (e : GoString × Int) (l : List (GoString × Int)) :
    m.addAll (e :: l) = (m.addTo e.1 e.2).addAll l := rfl

theorem GoMap.sumValues_addAll (m : GoMap Int) (l : List (GoString × Int)) :
    (m.addAll l).sumValues = m.sumValues + (l.map Prod.snd).sum := by
  induction l generalizing m with
  | nil => simp [GoMap.addAll]
  | cons e rest ih =>
    rw [GoMap.addAll_cons, ih, GoMap.sumValues_addTo]
    simp only [List.map_cons, List.sum_cons]
    omega

theorem GoMap.get?_addAll (m : GoMap Int) (l : List (GoString × Int)) (k : GoString) :
    (m.addAll l).get? k
      = if l.filter (fun e => decide (e.1 = k)) = [] then m.get? k
        else some ((m.get? k).getD 0
          + ((l.filter (fun e => decide (e.1 = k))).map Prod.snd).sum) := by
  induction l generalizing m with
  | nil => simp [GoMap.addAll]
  | cons e rest ih =>
    rw [GoMap.addAll_cons, ih, GoMap.get?_addTo]
    by_cases hk : e.1 = k
    · subst hk
      simp only [if_true, List.filter_cons, decide_True, Option.getD_some, List.map_cons,
        List.sum_cons]
      by_cases hr : rest.filter (fun e' => decide (e'.1 = e.1)) = []
      · simp [hr]
      · simp only [hr, if_false, reduceCtorEq, Option.some.injEq]
        omega
    · have hk' : ¬ k = e.1 := fun h => hk h.symm
      simp only [hk', if_false, List.filter_cons, hk, decide_False]
      simp

/-! ## C1: `parseSessionTokens` -/

theorem sessionLine_eq (tokens : TokenUsage) (l : Line EventMsg) :
    sessionLine tokens l = (snapshotOf l).getD tokens := by
  unfold sessionLine snapshotOf
  cases l.decoded with
  | none => rfl
  | some event =>
    simp only
    split
    · cases event.Payload.Info with
      | none => rfl
      | some info => rfl
    · rfl

theorem foldl_sessionLine (lines : List (Line EventMsg)) (tokens : TokenUsage) :
    lines.foldl sessionLine tokens = ((lines.filterMap snapshotOf).getLast?).getD tokens := by
  induction lines generalizing tokens with
  | nil => rfl
  | cons l rest ih =>
    rw [List.foldl_cons, ih, sessionLine_eq, List.filterMap_cons]
    cases snapshotOf l with
    | none => rfl
    | some u => simp [List.getLast?_cons]

theorem scanLines_eq_self {α : Type} (lines : List (Line α))
    (h : ∀ l ∈ lines, l.size < maxTokenSize) : scanLines lines = lines := by
  unfold scanLines
  rw [List.takeWhile_eq_self_iff]
  intro l hl
  exact decide_eq_true (h l hl)

/-- C1, as stated, fails: in a session file with snapshots of total 10, 25 and
40 whose second line has 11,000,000 bytes before its line feed, the scan stops
at that line;
`parseSessionTokens` returns the snapshot with total 10 while the last
`token_count` line of the file carries total 40. -/
theorem parseSessionTokens_stops_at_overlong_line :
    (parseSessionTokens (some overlongSession)).TotalTokens = Int64.ofInt 10 ∧
    (lastSnapshot overlongSession).TotalTokens = Int64.ofInt 40 ∧
    parseSessionTokens (some overlongSession) ≠ lastSnapshot overlongSession := by
  decide

/-- C1 (amended): `parseSessionTokens` returns the five token fields of the
last line that carries a snapshot (decodes to an "event_msg" event with
payload type "token_count" and info present) among the lines the scanner
delivers, that is among the lines before the first line with 10 MiB
(10485760) or more bytes before its line feed, a carriage return before the
line feed counted; it never adds snapshots up.  In a file without such an
overlong line (`size < maxTokenSize` for every line) this is the last
snapshot of the whole file.  It returns the all-zero snapshot when
no delivered line carries a snapshot and when the file cannot be opened. -/
theorem parseSessionTokens_eq_lastSnapshot (lines : List (Line EventMsg)) :
    parseSessionTokens (some lines) = lastSnapshot (scanLines lines) ∧
    ((∀ l ∈ lines, l.size < maxTokenSize) →
      parseSessionTokens (some lines) = lastSnapshot lines) ∧
    ((∀ l ∈ scanLines lines, snapshotOf l = none) →
      parseSessionTokens (some lines) = TokenUsage.zero) ∧
    parseSessionTokens none = TokenUsage.zero := by
  have h : parseSessionTokens (some lines) = lastSnapshot (scanLines lines) :=
    foldl_sessionLine (scanLines lines) TokenUsage.zero
  refine ⟨h, ?_, ?_, rfl⟩
  · intro hshort
    rw [h, scanLines_eq_self lines hshort]
  · intro hnone
    rw [h]
    unfold lastSnapshot
    have : (scanLines lines).filterMap snapshotOf = [] := by
      rw [List.filterMap_eq_nil_iff]
      exact hnone
    rw [this]
    rfl

/-- The witness of C1: snapshots with total 10, then 25, then 40, with an
undecodable line in between, give total 40 (not 75). -/
theorem parseSessionTokens_witness :
    (parseSessionTokens (some [tokenCountLine 80 1 0 9 0 10, brokenLine 5,
      tokenCountLine 80 2 0 23 0 25, tokenCountLine 80 3 0 37 0 40])).TotalTokens
      = Int64.ofInt 40 := by
  rw [((parseSessionTokens_eq_lastSnapshot _).2.1 (by decide))]
  decide

/-! ## C2: `parseHistory` -/

theorem foldl_historyLine (formatDate : Int64 → GoString) (lines : List (Line HistoryEntry))
    (m : GoMap Int) :
    lines.foldl (historyLine formatDate) m
      = m.addAll ((lines.filterMap (dateOfLine formatDate)).map (fun d => (d, 1))) := by
  induction lines generalizing m with
  | nil => rfl
  | cons l rest ih =>
    rw [List.foldl_cons, ih, List.filterMap_cons]
    unfold historyLine dateOfLine
    cases l.decoded with
    | none => rfl
    | some entry =>
      simp only
      split <;> rfl

theorem length_filterMap_dateOfLine (formatDate : Int64 → GoString)
    (lines : List (Line HistoryEntry)) :
    (lines.filterMap (dateOfLine formatDate)).length = (lines.filter countsAsMessage).length := by
  induction lines with
  | nil => rfl
  | cons l rest ih =>
    rw [List.filterMap_cons, List.filter_cons]
    unfold dateOfLine countsAsMessage
    cases l.decoded with
    | none => simpa using ih
    | some entry =>
      by_cases h : entry.Timestamp.val > 0
      · simpa [h] using ih
      · simpa [h] using ih

theorem sum_map_const_one (ds : List GoString) :
    ((ds.map (fun d => ((d, 1) : GoString × Int))).map Prod.snd).sum = (ds.length : Int) := by
  induction ds with
  | nil => rfl
  | cons d rest ih =>
    simp only [List.map_cons, List.sum_cons, List.length_cons, ih]
    push_cast
    omega

theorem filter_map_const_one (ds : List GoString) (k : GoString) :
    (ds.map (fun d => ((d, 1) : GoString × Int))).filter (fun e => decide (e.1 = k))
      = (ds.filter (fun d => decide (d = k))).map (fun d => (d, 1)) := by
  induction ds with
  | nil => rfl
  | cons d rest ih =>
    by_cases h : d = k
    · simp [List.filter_cons, h, ih]
    · simp [List.filter_cons, h, ih]

/-- C2, as stated, fails: in a history log of three records with positive
timestamps whose second line has 11,000,000 bytes before its line feed, the
scan stops at that line; the counts of `parseHistory` sum to 1 while 3 lines decode with a
timestamp `> 0`. -/
theorem parseHistory_stops_at_overlong_line :
    (parseHistory formatDateUTC (some overlongHistory)).sumValues = 1 ∧
    (overlongHistory.filter countsAsMessage).length = 3 := by
  decide

/-- C2 (amended): the values of the DailyCounts returned by `parseHistory` sum
to the number of lines that decode with a timestamp `> 0` among the lines the
scanner delivers (the lines before the first line with 10 MiB, 10485760, or
more bytes before its line feed, a carriage return before the line feed
counted); in a log without such an overlong line (`size < maxTokenSize` for
every line), to the number of all such lines.  The keys are
exactly the dates of those lines and the count of a date is the number of
those lines with that date: undecodable lines and records with an absent,
zero or negative timestamp add to no bucket and create no key.  A log that
cannot be opened gives the empty map. -/
theorem parseHistory_counts (formatDate : Int64 → GoString) (lines : List (Line HistoryEntry)) :
    (parseHistory formatDate (some lines)).sumValues
      = (((scanLines lines).filter countsAsMessage).length : Int) ∧
    ((∀ l ∈ lines, l.size < maxTokenSize) →
      (parseHistory formatDate (some lines)).sumValues
        = ((lines.filter countsAsMessage).length : Int)) ∧
    (∀ d, d ∈ (parseHistory formatDate (some lines)).keys ↔
      ∃ l ∈ scanLines lines, dateOfLine formatDate l = some d) ∧
    (∀ d n, (parseHistory formatDate (some lines)).get? d = some n →
      n = ((((scanLines lines).filterMap (dateOfLine formatDate)).filter
        (fun x => decide (x = d))).length : Int)) ∧
    parseHistory formatDate none = GoMap.empty := by
  have hfold : parseHistory formatDate (some lines)
      = GoMap.empty.addAll
          (((scanLines lines).filterMap (dateOfLine formatDate)).map (fun d => (d, 1))) :=
    foldl_historyLine formatDate (scanLines lines) GoMap.empty
  have hsum : (parseHistory formatDate (some lines)).sumValues
      = (((scanLines lines).filter countsAsMessage).length : Int) := by
    rw [hfold, GoMap.sumValues_addAll, sum_map_const_one, length_filterMap_dateOfLine]
    simp [GoMap.sumValues, GoMap.empty]
  have hget : ∀ d, (parseHistory formatDate (some lines)).get? d
      = if ((scanLines lines).filterMap (dateOfLine formatDate)).filter
            (fun x => decide (x = d)) = [] then none
        else some (((((scanLines lines).filterMap (dateOfLine formatDate)).filter
            (fun x => decide (x = d))).length : Int)) := by
    intro d
    rw [hfold, GoMap.get?_addAll, filter_map_const_one, sum_map_const_one]
    simp only [GoMap.get?_empty, Option.getD_none, zero_add, List.map_eq_nil_iff]
  refine ⟨hsum, ?_, ?_, ?_, rfl⟩
  · intro hshort
    rw [hsum, scanLines_eq_self lines hshort]
  · intro d
    rw [GoMap.mem_keys_iff, hget d]
    constructor
    · rintro ⟨v, hv⟩
      by_cases hnil : ((scanLines lines).filterMap (dateOfLine formatDate)).filter
          (fun x => decide (x = d)) = []
      · rw [if_pos hnil] at hv; exact absurd hv (by simp)
      · obtain ⟨x, hx⟩ := List.exists_mem_of_ne_nil _ hnil
        rw [List.mem_filter] at hx
        obtain ⟨l, hl, hld⟩ := List.mem_filterMap.mp hx.1
        have hxd : x = d := of_decide_eq_true hx.2
        exact ⟨l, hl, hxd ▸ hld⟩
    · rintro ⟨l, hl, hld⟩
      have hmem : d ∈ ((scanLines lines).filterMap (dateOfLine formatDate)).filter
          (fun x => decide (x = d)) :=
        List.mem_filter.mpr ⟨List.mem_filterMap.mpr ⟨l, hl, hld⟩, decide_eq_true rfl⟩
      have hnil : ((scanLines lines).filterMap (dateOfLine formatDate)).filter
          (fun x => decide (x = d)) ≠ [] := List.ne_nil_of_mem hmem
      rw [if_neg hnil]
      exact ⟨_, rfl⟩
  · intro d n hn
    rw [hget d] at hn
    by_cases hnil : ((scanLines lines).filterMap (dateOfLine formatDate)).filter
        (fun x => decide (x = d)) = []
    · rw [if_pos hnil] at hn; exact absurd hn (by simp)
    · rw [if_neg hnil] at hn
      exact (Option.some.inj hn).symm

/-- A witness of C2: five lines, one undecodable and one with timestamp 0;
three records count, two on 2024-03-15 and one on 2024-03-28. -/
theorem parseHistory_witness :
    (parseHistory formatDateUTC (some [historyRecord 50 1710460800, brokenLine 3,
      historyRecord 50 0, historyRecord 50 1710460900, historyRecord 50 1711584000])).sumValues = 3 ∧
    (parseHistory formatDateUTC (some [historyRecord 50 1710460800, brokenLine 3,
      historyRecord 50 0, historyRecord 50 1710460900, historyRecord 50 1711584000])).entries
      = [(ascii "2024-03-15", 2), (ascii "2024-03-28", 1)] := by
  refine ⟨?_, by decide⟩
  rw [((parseHistory_counts formatDateUTC _).2.1 (by decide))]
  decide

/-! ## C5, C9, C10: the per-file step of `collectTokenStats` -/

theorem foldSessionFile_eq (mt : GoMap MonthlyTokens) (monthKey : GoString) (t : MonthlyTokens)
    (sessionFile : Option (List (Line EventMsg))) (hkey : mt.get? monthKey = some t) :
    foldSessionFile mt monthKey sessionFile
      = some (mt.set monthKey (t.addSession (parseSessionTokens sessionFile))) := by
  unfold foldSessionFile
  simp only [hkey]

theorem foldSessionFile_eq_none (mt : GoMap MonthlyTokens) (monthKey : GoString)
    (sessionFile : Option (List (Line EventMsg))) (hkey : mt.get? monthKey = none) :
    foldSessionFile mt monthKey sessionFile = none := by
  unfold foldSessionFile
  simp only [hkey]

theorem parseSessionTokens_eq_zero (sessionFile : Option (List (Line EventMsg)))
    (h : sessionFile = none ∨
      ∃ lines, sessionFile = some lines ∧ ∀ l ∈ lines, snapshotOf l = none) :
    parseSessionTokens sessionFile = TokenUsage.zero := by
  rcases h with h | ⟨lines, h, hl⟩
  · subst h; rfl
  · subst h
    have hnil : (scanLines lines).filterMap snapshotOf = [] := by
      rw [List.filterMap_eq_nil_iff]
      intro l hl'
      exact hl l ((List.takeWhile_sublist _).subset hl')
    show (scanLines lines).foldl sessionLine TokenUsage.zero = TokenUsage.zero
    rw [foldl_sessionLine, hnil]
    rfl

/-- C5: when the key of the month is in the aggregate (the guard at lines 161
to 163 of `collectTokenStats` puts it there before the files of the month are
visited), folding a session file returns an aggregate in which the
SessionCount of that key is larger by exactly 1, whatever the file contains;
when the file cannot be opened or none of its lines carries a snapshot (as
when it has no token_count event), the five token sums of the key are
unchanged; the entry of every other key is unchanged. -/
theorem foldSessionFile_counts_session (mt : GoMap MonthlyTokens) (monthKey : GoString)
    (t : MonthlyTokens) (sessionFile : Option (List (Line EventMsg)))
    (hkey : mt.get? monthKey = some t) :
    ∃ mt' t', foldSessionFile mt monthKey sessionFile = some mt' ∧
      mt'.get? monthKey = some t' ∧
      t'.SessionCount = t.SessionCount + 1 ∧
      ((sessionFile = none ∨
          ∃ lines, sessionFile = some lines ∧ ∀ l ∈ lines, snapshotOf l = none) →
        t'.sameTokens t) ∧
      ∀ k, k ≠ monthKey → mt'.get? k = mt.get? k := by
  refine ⟨_, t.addSession (parseSessionTokens sessionFile),
    foldSessionFile_eq mt monthKey t sessionFile hkey, ?_, rfl, ?_, ?_⟩
  · rw [GoMap.get?_set, if_pos rfl]
  · intro h
    rw [parseSessionTokens_eq_zero sessionFile h]
    simp only [MonthlyTokens.sameTokens, MonthlyTokens.addSession, TokenUsage.zero,
      Int64.add_zero, and_self]
  · intro k hk
    rw [GoMap.get?_set, if_neg hk]

/-- A witness of C5: folding a session file without any token_count event
into an aggregate with the month "2024-03". -/
theorem foldSessionFile_counts_session_witness :
    ∃ mt' t', foldSessionFile sampleAggregate (ascii "2024-03") (some quietSession) = some mt' ∧
      mt'.get? (ascii "2024-03") = some t' ∧
      t'.SessionCount = (monthlyOf 10 0 0 0 10 1).SessionCount + 1 ∧
      ((some quietSession = none ∨
          ∃ lines, some quietSession = some lines ∧ ∀ l ∈ lines, snapshotOf l = none) →
        t'.sameTokens (monthlyOf 10 0 0 0 10 1)) ∧
      ∀ k, k ≠ ascii "2024-03" → mt'.get? k = sampleAggregate.get? k :=
  foldSessionFile_counts_session sampleAggregate (ascii "2024-03") (monthlyOf 10 0 0 0 10 1)
    (some quietSession) (by decide)

/-- C9, as stated, fails.  A session file whose last snapshot has
`input_tokens = -5` lowers the InputTokens sum of its month from 10 to 5; and
a snapshot with `total_tokens = 2^62` folded into a month whose TotalTokens
is `2^62` wraps the sum around to `-2^63`. -/
theorem foldSessionFile_can_decrease :
    (sampleAggregate.get? (ascii "2024-03")).map (fun t => t.InputTokens.val) = some 10 ∧
    ((foldSessionFile sampleAggregate (ascii "2024-03")
      (some [tokenCountLine 80 (-5) 0 0 0 (-5)])).bind
        (fun mt => mt.get? (ascii "2024-03"))).map (fun t => t.InputTokens.val) = some 5 ∧
    ((foldSessionFile largeAggregate (ascii "2024-03")
      (some [tokenCountLine 80 0 0 0 0 4611686018427387904])).bind
        (fun mt => mt.get? (ascii "2024-03"))).map (fun t => t.TotalTokens.val)
      = some (-9223372036854775808) := by
  decide

theorem Int64.le_add (a b : Int64) (h0 : 0 ≤ b.val)
    (hfit : a.val + b.val < 9223372036854775808) : a.val ≤ (a.add b).val := by
  rw [Int64.add_val, wrapInt64_of_inRange _ ⟨by have := a.property.1; omega, hfit⟩]
  omega

/-- C9 (amended): when the key of the month is in the aggregate, folding a
session file returns an aggregate that keeps every key and in which no
SessionCount is smaller than before; if moreover the five fields of the
file's snapshot are non-negative and none of the five sums leaves the
`int64` range, each of the five token sums of every key is greater than or
equal to its value before the fold. -/
theorem foldSessionFile_monotone (mt : GoMap MonthlyTokens) (monthKey : GoString)
    (t : MonthlyTokens) (sessionFile : Option (List (Line EventMsg)))
    (hkey : mt.get? monthKey = some t) :
    ∃ mt', foldSessionFile mt monthKey sessionFile = some mt' ∧
      ∀ k old, mt.get? k = some old →
        ∃ new, mt'.get? k = some new ∧ old.SessionCount ≤ new.SessionCount ∧
          ((parseSessionTokens sessionFile).NonNeg → t.Fits (parseSessionTokens sessionFile) →
            old.le new) := by
  refine ⟨_, foldSessionFile_eq mt monthKey t sessionFile hkey, ?_⟩
  intro k old hold
  rw [GoMap.get?_set]
  by_cases hk : k = monthKey
  · subst hk
    rw [hkey] at hold
    cases hold
    rw [if_pos rfl]
    refine ⟨_, rfl, by simp [MonthlyTokens.addSession], ?_⟩
    intro hnn hfit
    obtain ⟨n1, n2, n3, n4, n5⟩ := hnn
    obtain ⟨f1, f2, f3, f4, f5⟩ := hfit
    exact ⟨Int64.le_add _ _ n1 f1, Int64.le_add _ _ n2 f2, Int64.le_add _ _ n3 f3,
      Int64.le_add _ _ n4 f4, Int64.le_add _ _ n5 f5, by simp [MonthlyTokens.addSession]⟩
  · rw [if_neg hk]
    exact ⟨old, hold, le_refl _, fun _ _ => ⟨le_refl _, le_refl _, le_refl _, le_refl _,
      le_refl _, le_refl _⟩⟩

/-- A witness of C9 (amended): a session file with the snapshots 10 and 40
folded into the month "2024-03". -/
theorem foldSessionFile_monotone_witness :
    ∃ mt', foldSessionFile sampleAggregate (ascii "2024-03")
        (some [tokenCountLine 80 1 0 9 0 10, tokenCountLine 80 3 0 37 0 40]) = some mt' ∧
      ∀ k old, sampleAggregate.get? k = some old →
        ∃ new, mt'.get? k = some new ∧ old.SessionCount ≤ new.SessionCount ∧
          ((parseSessionTokens
              (some [tokenCountLine 80 1 0 9 0 10, tokenCountLine 80 3 0 37 0 40])).NonNeg →
            (monthlyOf 10 0 0 0 10 1).Fits (parseSessionTokens
              (some [tokenCountLine 80 1 0 9 0 10, tokenCountLine 80 3 0 37 0 40])) →
            old.le new) :=
  foldSessionFile_monotone sampleAggregate (ascii "2024-03") (monthlyOf 10 0 0 0 10 1)
    (some [tokenCountLine 80 1 0 9 0 10, tokenCountLine 80 3 0 37 0 40]) (by decide)

theorem foldlM_option_perm {α β : Type} (f : β → α → Option β)
    (hcomm : ∀ b x y, (f b x).bind (fun b' => f b' y) = (f b y).bind (fun b' => f b' x))
    {l₁ l₂ : List α} (p : l₁.Perm l₂) (b : β) : l₁.foldlM f b = l₂.foldlM f b := by
  induction p generalizing b with
  | nil => rfl
  | cons x _ ih =>
    simp only [List.foldlM_cons]
    cases f b x with
    | none => rfl
    | some b' => exact ih b'
  | swap x y l =>
    simp only [List.foldlM_cons]
    have h := hcomm b y x
    cases hy : f b y with
    | none =>
      rw [hy] at h
      cases hx : f b x with
      | none => rfl
      | some bx =>
        rw [hx] at h
        simp only [Option.bind_eq_bind, Option.none_bind, Option.some_bind] at h ⊢
        rw [← h]
        rfl
    | some b_y =>
      rw [hy] at h
      cases hx : f b x with
      | none =>
        rw [hx] at h
        simp only [Option.bind_eq_bind, Option.none_bind, Option.some_bind] at h ⊢
        rw [h]
        rfl
      | some bx =>
        rw [hx] at h
        simp only [Option.bind_eq_bind, Option.some_bind] at h ⊢
        rw [h]
  | trans _ _ ih₁ ih₂ => exact (ih₁ b).trans (ih₂ b)

theorem foldlM_option_invariant {α β : Type} (f : β → α → Option β) (P : β → Prop)
    (l : List α) (h : ∀ b, P b → ∀ a ∈ l, ∃ b', f b a = some b' ∧ P b') (b : β) (hb : P b) :
    ∃ b', l.foldlM f b = some b' ∧ P b' := by
  induction l generalizing b with
  | nil => exact ⟨b, rfl, hb⟩
  | cons a rest ih =>
    obtain ⟨b₁, hb₁, hP₁⟩ := h b hb a (List.mem_cons_self _ _)
    obtain ⟨b₂, hb₂, hP₂⟩ :=
      ih (fun b hb a ha => h b hb a (List.mem_cons_of_mem _ ha)) b₁ hP₁
    refine ⟨b₂, ?_, hP₂⟩
    simp only [List.foldlM_cons, hb₁]
    exact hb₂

theorem GoMap.set_set {V : Type} (m : GoMap V) (k : GoString) (a b : V) :
    (m.set k a).set k b = m.set k b := by
  apply GoMap.ext
  intro k'
  simp only [GoMap.get?_set]
  split <;> rfl

theorem GoMap.set_comm {V : Type} (m : GoMap V) (k₁ k₂ : GoString) (a b : V) (h : k₁ ≠ k₂) :
    (m.set k₁ a).set k₂ b = (m.set k₂ b).set k₁ a := by
  apply GoMap.ext
  intro k'
  simp only [GoMap.get?_set]
  by_cases h₁ : k' = k₁
  · subst h₁
    simp [h]
  · simp [h₁]

theorem MonthlyTokens.addSession_comm (t : MonthlyTokens) (u₁ u₂ : TokenUsage) :
    (t.addSession u₁).addSession u₂ = (t.addSession u₂).addSession u₁ := by
  unfold MonthlyTokens.addSession
  simp only [MonthlyTokens.mk.injEq, and_true]
  exact ⟨Int64.add_right_comm _ _ _, Int64.add_right_comm _ _ _, Int64.add_right_comm _ _ _,
    Int64.add_right_comm _ _ _, Int64.add_right_comm _ _ _⟩

theorem foldSessionFile_comm (mt : GoMap MonthlyTokens)
    (x y : GoString × Option (List (Line EventMsg))) :
    (foldSessionFile mt x.1 x.2).bind (fun mt' => foldSessionFile mt' y.1 y.2)
      = (foldSessionFile mt y.1 y.2).bind (fun mt' => foldSessionFile mt' x.1 x.2) := by
  obtain ⟨k₁, s₁⟩ := x
  obtain ⟨k₂, s₂⟩ := y
  simp only
  cases h₁ : mt.get? k₁ with
  | none =>
    rw [foldSessionFile_eq_none mt k₁ s₁ h₁]
    cases h₂ : mt.get? k₂ with
    | none => rw [foldSessionFile_eq_none mt k₂ s₂ h₂]; rfl
    | some t₂ =>
      rw [foldSessionFile_eq mt k₂ t₂ s₂ h₂]
      have hne : k₁ ≠ k₂ := fun e => by rw [e, h₂] at h₁; exact absurd h₁ (by simp)
      simp only [Option.none_bind, Option.some_bind]
      rw [foldSessionFile_eq_none]
      rw [GoMap.get?_set, if_neg hne, h₁]
  | some t₁ =>
    rw [foldSessionFile_eq mt k₁ t₁ s₁ h₁]
    cases h₂ : mt.get? k₂ with
    | none =>
      rw [foldSessionFile_eq_none mt k₂ s₂ h₂]
      have hne : k₂ ≠ k₁ := fun e => by rw [e, h₁] at h₂; exact absurd h₂ (by simp)
      simp only [Option.none_bind, Option.some_bind]
      rw [foldSessionFile_eq_none]
      rw [GoMap.get?_set, if_neg hne, h₂]
    | some t₂ =>
      rw [foldSessionFile_eq mt k₂ t₂ s₂ h₂]
      simp only [Option.some_bind]
      by_cases hk : k₁ = k₂
      · subst hk
        rw [h₁] at h₂
        cases h₂
        rw [foldSessionFile_eq _ k₁ (t₁.addSession (parseSessionTokens s₁)) s₂
            (by rw [GoMap.get?_set, if_pos rfl]),
          foldSessionFile_eq _ k₁ (t₁.addSession (parseSessionTokens s₂)) s₁
            (by rw [GoMap.get?_set, if_pos rfl]),
          GoMap.set_set, GoMap.set_set, MonthlyTokens.addSession_comm]
      · have hk' : k₂ ≠ k₁ := fun e => hk e.symm
        rw [foldSessionFile_eq _ k₂ t₂ s₂ (by rw [GoMap.get?_set, if_neg hk', h₂]),
          foldSessionFile_eq _ k₁ t₁ s₁ (by rw [GoMap.get?_set, if_neg hk, h₁]),
          GoMap.set_comm _ _ _ _ _ hk]

theorem foldSessionFile_keeps_keys (mt : GoMap MonthlyTokens) (monthKey : GoString)
    (sessionFile : Option (List (Line EventMsg))) (h : ∃ t, mt.get? monthKey = some t) :
    ∃ mt', foldSessionFile mt monthKey sessionFile = some mt' ∧
      ∀ k, (∃ t, mt.get? k = some t) → ∃ t, mt'.get? k = some t := by
  obtain ⟨t, ht⟩ := h
  refine ⟨_, foldSessionFile_eq mt monthKey t sessionFile ht, ?_⟩
  intro k hk
  rw [GoMap.get?_set]
  by_cases h : k = monthKey
  · rw [if_pos h]; exact ⟨_, rfl⟩
  · rw [if_neg h]; exact hk

/-- C10: the per-file step of `collectTokenStats` folded over a list of
(year-month key, session file) pairs gives the same result for every
permutation of the list: the same aggregate, hence the same five token sums
and the same SessionCount at every key, when the keys of the files are in the
initial aggregate (as the guard of `collectTokenStats` sees to), and a
nil-pointer panic in both orders otherwise. -/
theorem foldSessionFiles_perm (mt : GoMap MonthlyTokens)
    (files files' : List (GoString × Option (List (Line EventMsg))))
    (hperm : files.Perm files') :
    foldSessionFiles mt files = foldSessionFiles mt files' ∧
    ((∀ f ∈ files, ∃ t, mt.get? f.1 = some t) →
      ∃ r, foldSessionFiles mt files = some r ∧ foldSessionFiles mt files' = some r ∧
        ∀ k, (∃ t, mt.get? k = some t) → ∃ t, r.get? k = some t) := by
  have heq : foldSessionFiles mt files = foldSessionFiles mt files' :=
    foldlM_option_perm
      (fun (mt : GoMap MonthlyTokens) (f : GoString × Option (List (Line EventMsg))) =>
        foldSessionFile mt f.1 f.2)
      (fun b x y => foldSessionFile_comm b x y) hperm mt
  refine ⟨heq, ?_⟩
  intro hkeys
  obtain ⟨r, hr, hP⟩ := foldlM_option_invariant
    (fun (mt : GoMap MonthlyTokens) (f : GoString × Option (List (Line EventMsg))) =>
      foldSessionFile mt f.1 f.2)
    (fun b => ∀ k, (∃ t, mt.get? k = some t) → ∃ t, b.get? k = some t) files
    (fun b hb a ha => by
      obtain ⟨b', hb', hk'⟩ := foldSessionFile_keeps_keys b a.1 a.2 (hb a.1 (hkeys a ha))
      exact ⟨b', hb', fun k hk => hk' k (hb k hk)⟩)
    mt (fun k hk => hk)
  exact ⟨r, hr, heq ▸ hr, hP⟩

/-- A witness of C10: three session files of two months, folded in the given
and in the reversed order. -/
theorem foldSessionFiles_perm_witness :
    (foldSessionFiles twoMonths sampleFiles = foldSessionFiles twoMonths sampleFiles.reverse ∧
    ((∀ f ∈ sampleFiles, ∃ t, twoMonths.get? f.1 = some t) →
      ∃ r, foldSessionFiles twoMonths sampleFiles = some r ∧
        foldSessionFiles twoMonths sampleFiles.reverse = some r ∧
        ∀ k, (∃ t, twoMonths.get? k = some t) → ∃ t, r.get? k = some t)) ∧
    (foldSessionFiles twoMonths sampleFiles).map (fun m => m.entries)
      = some [(ascii "2024-03", monthlyOf 3 0 37 0 40 2), (ascii "2024-04", monthlyOf 7 1 2 1 9 1)] :=
  ⟨foldSessionFiles_perm twoMonths sampleFiles sampleFiles.reverse
    (List.reverse_perm sampleFiles).symm, by decide⟩

/-! ### `collectTokenStats` never panics -/

theorem ensureMonth_get? (mt : GoMap MonthlyTokens) (monthKey : GoString) :
    ∃ t, (ensureMonth mt monthKey).get? monthKey = some t := by
  unfold ensureMonth
  cases h : mt.get? monthKey with
  | none => exact ⟨_, by simp only; rw [GoMap.get?_set, if_pos rfl]⟩
  | some t => exact ⟨t, h⟩

theorem fileStep_some (monthKey : GoString) (mt : GoMap MonthlyTokens) (fileEntry : FileEntry)
    (h : ∃ t, mt.get? monthKey = some t) :
    ∃ mt', fileStep monthKey mt fileEntry = some mt' ∧ ∃ t, mt'.get? monthKey = some t := by
  unfold fileStep
  split
  · obtain ⟨mt', h₁, h₂⟩ := foldSessionFile_keeps_keys mt monthKey fileEntry.content h
    exact ⟨mt', h₁, h₂ monthKey h⟩
  · exact ⟨mt, rfl, h⟩

theorem dayStep_some (monthKey : GoString) (mt : GoMap MonthlyTokens) (dayEntry : DayEntry)
    (h : ∃ t, mt.get? monthKey = some t) :
    ∃ mt', dayStep monthKey mt dayEntry = some mt' ∧ ∃ t, mt'.get? monthKey = some t := by
  unfold dayStep
  split
  · cases dayEntry.files with
    | none => exact ⟨mt, rfl, h⟩
    | some files =>
      exact foldlM_option_invariant (fileStep monthKey) (fun b => ∃ t, b.get? monthKey = some t)
        files (fun b hb a _ => fileStep_some monthKey b a hb) mt h
  · exact ⟨mt, rfl, h⟩

theorem monthStep_some (year : GoString) (mt : GoMap MonthlyTokens) (monthEntry : MonthEntry) :
    ∃ mt', monthStep year mt monthEntry = some mt' ∧ True := by
  unfold monthStep
  split
  · cases monthEntry.days with
    | none => exact ⟨_, rfl, trivial⟩
    | some days =>
      obtain ⟨r, hr, _⟩ := foldlM_option_invariant (dayStep (year ++ ascii "-" ++ monthEntry.name))
        (fun b => ∃ t, b.get? (year ++ ascii "-" ++ monthEntry.name) = some t) days
        (fun b hb a _ => dayStep_some _ b a hb) _ (ensureMonth_get? mt _)
      exact ⟨r, hr, trivial⟩
  · exact ⟨mt, rfl, trivial⟩

theorem yearStep_some (mt : GoMap MonthlyTokens) (yearEntry : YearEntry) :
    ∃ mt', yearStep mt yearEntry = some mt' ∧ True := by
  unfold yearStep
  split
  · cases yearEntry.months with
    | none => exact ⟨_, rfl, trivial⟩
    | some months =>
      exact foldlM_option_invariant (monthStep yearEntry.name) (fun _ => True) months
        (fun b _ a _ => monthStep_some _ b a) mt trivial
  · exact ⟨mt, rfl, trivial⟩

/-- `collectTokenStats` returns an aggregate for every sessions directory: the
per-file step never meets a missing key. -/
theorem collectTokenStats_some (sessionsDir : Option (List YearEntry)) :
    ∃ mt, collectTokenStats sessionsDir = some mt := by
  unfold collectTokenStats
  cases sessionsDir with
  | none => exact ⟨_, rfl⟩
  | some years =>
    obtain ⟨r, hr, _⟩ := foldlM_option_invariant yearStep (fun _ => True) years
      (fun b _ a _ => yearStep_some b a) GoMap.empty trivial
    exact ⟨r, hr⟩

/-! ## `calculateStats`: the loops -/

theorem wrapInt64_congr_add (a b x : Int) (h : wrapInt64 a = wrapInt64 b) :
    wrapInt64 (a + x) = wrapInt64 (b + x) := by
  unfold wrapInt64 at h ⊢
  omega

theorem GoMap.get?_addWrap (m : GoMap Int) (k k' : GoString) (c : Int) :
    (m.addWrap k c).get? k'
      = if k' = k then some (wrapInt64 ((m.get? k).getD 0 + c)) else m.get? k' := by
  unfold GoMap.addWrap
  rw [GoMap.get?_set]

theorem GoMap.addWrapAll_cons (m : GoMap Int) (e : GoString × Int) (l : List (GoString × Int)) :
    m.addWrapAll (e :: l) = (m.addWrap e.1 e.2).addWrapAll l := rfl

theorem GoMap.get?_addWrapAll (m : GoMap Int) (l : List (GoString × Int)) (k : GoString) :
    (m.addWrapAll l).get? k
      = if l.filter (fun e => decide (e.1 = k)) = [] then m.get? k
        else some (wrapInt64 ((m.get? k).getD 0
          + ((l.filter (fun e => decide (e.1 = k))).map Prod.snd).sum)) := by
  induction l generalizing m with
  | nil => simp [GoMap.addWrapAll]
  | cons e rest ih =>
    rw [GoMap.addWrapAll_cons, ih, GoMap.get?_addWrap]
    by_cases hk : e.1 = k
    · subst hk
      simp only [if_true, List.filter_cons, decide_True, Option.getD_some, List.map_cons,
        List.sum_cons]
      by_cases hr : rest.filter (fun e' => decide (e'.1 = e.1)) = []
      · simp [hr]
      · simp only [hr, if_false, reduceCtorEq, Option.some.injEq]
        rw [wrapInt64_add_wrap]
        congr 1
        omega
    · have hk' : ¬ k = e.1 := fun h => hk h.symm
      simp only [hk', if_false, List.filter_cons, hk, decide_False]
      simp

theorem GoMap.wrap_sumValues_addWrap (m : GoMap Int) (k : GoString) (c : Int) :
    wrapInt64 (m.addWrap k c).sumValues = wrapInt64 (m.sumValues + c) := by
  unfold GoMap.addWrap GoMap.sumValues GoMap.set GoMap.get?
  simp only
  rw [sum_setEntry k _ m.entries m.sorted]
  unfold wrapInt64
  omega

theorem GoMap.wrap_sumValues_addWrapAll (m : GoMap Int) (l : List (GoString × Int)) :
    wrapInt64 (m.addWrapAll l).sumValues = wrapInt64 (m.sumValues + (l.map Prod.snd).sum) := by
  induction l generalizing m with
  | nil => simp [GoMap.addWrapAll]
  | cons e rest ih =>
    rw [GoMap.addWrapAll_cons, ih,
      wrapInt64_congr_add _ _ _ (GoMap.wrap_sumValues_addWrap m e.1 e.2)]
    simp only [List.map_cons, List.sum_cons]
    congr 1
    omega

theorem GoMap.addWrap_comm (m : GoMap Int) (k₁ k₂ : GoString) (c₁ c₂ : Int) :
    (m.addWrap k₁ c₁).addWrap k₂ c₂ = (m.addWrap k₂ c₂).addWrap k₁ c₁ := by
  apply GoMap.ext
  intro k
  simp only [GoMap.get?_addWrap]
  by_cases h12 : k₁ = k₂
  · subst h12
    by_cases hk : k = k₁
    · simp only [hk, if_true, Option.getD_some, Option.some.injEq]
      rw [wrapInt64_add_wrap, wrapInt64_add_wrap]
      congr 1
      omega
    · simp only [hk, if_false]
  · have h21 : ¬ k₂ = k₁ := fun e => h12 e.symm
    by_cases hk1 : k = k₁
    · subst hk1
      simp only [h12, h21, if_true, if_false]
    · by_cases hk2 : k = k₂
      · subst hk2
        simp only [h12, h21, hk1, if_true, if_false]
      · simp only [hk1, hk2, if_false]

theorem GoMap.addWrapAll_perm (m : GoMap Int) {l₁ l₂ : List (GoString × Int)}
    (h : l₁.Perm l₂) : m.addWrapAll l₁ = m.addWrapAll l₂ := by
  unfold GoMap.addWrapAll
  exact List.Perm.foldl_eq' h (fun x _ y _ z => GoMap.addWrap_comm z x.1 y.1 x.2 y.2) m

theorem GoMap.single_le_sumValues (m : GoMap Int) (hm : ∀ k v, m.get? k = some v → 0 ≤ v)
    (k : GoString) : 0 ≤ (m.get? k).getD 0 ∧ (m.get? k).getD 0 ≤ m.sumValues := by
  have hall : ∀ x ∈ m.entries.map Prod.snd, 0 ≤ x := by
    intro x hx
    obtain ⟨e, he, rfl⟩ := List.mem_map.mp hx
    exact hm e.1 e.2 ((m.get?_eq_some_iff e.1 e.2).mpr he)
  cases hg : m.get? k with
  | none => exact ⟨le_refl _, List.sum_nonneg hall⟩
  | some v =>
    refine ⟨hm k v hg, ?_⟩
    exact List.single_le_sum hall v
      (List.mem_map.mpr ⟨(k, v), (m.get?_eq_some_iff k v).mp hg, rfl⟩)

/-- Without overflow the wrapping updates are the exact ones: for non-negative
values and counts whose total stays below `2^63`. -/
theorem GoMap.addWrapAll_eq_addAll (m : GoMap Int) (l : List (GoString × Int))
    (hm : ∀ k v, m.get? k = some v → 0 ≤ v) (hl : ∀ e ∈ l, 0 ≤ e.2)
    (hfit : m.sumValues + (l.map Prod.snd).sum < 9223372036854775808) :
    m.addWrapAll l = m.addAll l := by
  induction l generalizing m with
  | nil => rfl
  | cons e rest ih =>
    have he : 0 ≤ e.2 := hl e (List.mem_cons_self _ _)
    have hrest : 0 ≤ (rest.map Prod.snd).sum := by
      apply List.sum_nonneg
      intro x hx
      obtain ⟨e', he', rfl⟩ := List.mem_map.mp hx
      exact hl e' (List.mem_cons_of_mem _ he')
    obtain ⟨h0, hle⟩ := m.single_le_sumValues hm e.1
    simp only [List.map_cons, List.sum_cons] at hfit
    have hstep : m.addWrap e.1 e.2 = m.addTo e.1 e.2 := by
      unfold GoMap.addWrap GoMap.addTo
      rw [wrapInt64_of_inRange _ ⟨by omega, by omega⟩]
    rw [GoMap.addWrapAll_cons, GoMap.addAll_cons, hstep]
    apply ih
    · intro k v hkv
      rw [GoMap.get?_addTo] at hkv
      by_cases hk : k = e.1
      · rw [if_pos hk] at hkv
        rw [← Option.some.inj hkv]
        omega
      · rw [if_neg hk] at hkv
        exact hm k v hkv
    · intro e' he'
      exact hl e' (List.mem_cons_of_mem _ he')
    · rw [GoMap.sumValues_addTo]
      omega

theorem foldlM_monthlyStep (l : List (GoString × Int)) (mm : GoMap Int) :
    l.foldlM monthlyStep mm
      = if ∀ e ∈ l, 7 ≤ e.1.length then
          some (mm.addWrapAll (l.map (fun e => (e.1.take 7, e.2))))
        else none := by
  induction l generalizing mm with
  | nil => simp [GoMap.addWrapAll]
  | cons e rest ih =>
    rw [List.foldlM_cons]
    by_cases he : 7 ≤ e.1.length
    · have h1 : monthlyStep mm e = some (mm.addWrap (e.1.take 7) e.2) := by
        unfold monthlyStep slicePrefix
        simp only [he, if_true]
      rw [h1]
      simp only [Option.bind_eq_bind, Option.some_bind]
      rw [ih]
      simp only [List.mem_cons, forall_eq_or_imp, he, true_and, List.map_cons,
        GoMap.addWrapAll_cons]
    · have h1 : monthlyStep mm e = none := by
        unfold monthlyStep slicePrefix
        simp only [he, if_false]
      rw [h1]
      simp only [Option.bind_eq_bind, Option.none_bind, List.mem_cons, forall_eq_or_imp, he,
        false_and, if_false]

theorem foldl_total (l : List (GoString × Int)) (a : Int) :
    l.foldl (fun total e => wrapInt64 (total + e.2)) (wrapInt64 a)
      = wrapInt64 (a + (l.map Prod.snd).sum) := by
  induction l generalizing a with
  | nil => simp
  | cons e rest ih =>
    rw [List.foldl_cons, wrapInt64_add_wrap, ih]
    simp only [List.map_cons, List.sum_cons]
    congr 1
    omega

theorem sortStrings_perm {l₁ l₂ : List GoString} (h : l₁.Perm l₂) :
    sortStrings l₁ = sortStrings l₂ := by
  unfold sortStrings
  apply List.eq_of_perm_of_sorted (r := (· ≤ ·))
  · exact ((List.perm_insertionSort _ l₁).trans h).trans (List.perm_insertionSort _ l₂).symm
  · exact List.sorted_insertionSort _ l₁
  · exact List.sorted_insertionSort _ l₂

theorem monthly_of_range (env : Env) (hv : env.Valid) (m : GoMap Int) :
    (env.rangeMonthly m.entries).foldlM monthlyStep GoMap.empty
      = if ∀ k ∈ m.keys, 7 ≤ k.length then some (monthlyOfDays m) else none := by
  rw [foldlM_monthlyStep]
  have hp := hv.rangeMonthly m.entries
  have hiff : (∀ e ∈ env.rangeMonthly m.entries, 7 ≤ e.1.length) ↔ ∀ k ∈ m.keys, 7 ≤ k.length := by
    unfold GoMap.keys
    constructor
    · intro h k hk
      obtain ⟨e, he, rfl⟩ := List.mem_map.mp hk
      exact h e (hp.mem_iff.mpr he)
    · intro h e he
      exact h e.1 (List.mem_map_of_mem _ (hp.mem_iff.mp he))
  by_cases hk : ∀ k ∈ m.keys, 7 ≤ k.length
  · rw [if_pos (hiff.mpr hk), if_pos hk]
    unfold monthlyOfDays
    rw [GoMap.addWrapAll_perm _ (hp.map _)]
  · rw [if_neg (fun h => hk (hiff.mp h)), if_neg hk]

theorem sortedDays_perm (env : Env) (hv : env.Valid) (m : GoMap Int) :
    (sortedDays env m).Perm (m.entries.map (fun e => dayCount.mk e.1 e.2)) :=
  (hv.sortPerm _).trans ((hv.rangeDayCounts m.entries).map _)

theorem sortedDays_ne_nil (env : Env) (hv : env.Valid) (m : GoMap Int) (hne : m.len ≠ 0) :
    sortedDays env m ≠ [] := by
  intro h
  have := (sortedDays_perm env hv m).length_eq
  rw [h] at this
  simp only [List.length_nil, List.length_map] at this
  exact hne this.symm

theorem sortedDates_ne_nil (env : Env) (hv : env.Valid) (m : GoMap Int) (hne : m.len ≠ 0) :
    sortStrings ((env.rangeDates m.entries).map Prod.fst) ≠ [] := by
  intro h
  have h1 := (List.perm_insertionSort (· ≤ ·) ((env.rangeDates m.entries).map Prod.fst)).length_eq
  unfold sortStrings at h
  rw [h] at h1
  have h2 := (hv.rangeDates m.entries).length_eq
  simp only [List.length_nil, List.length_map] at h1
  exact hne (by unfold GoMap.len; omega)

/-- The result of `calculateStats` on a non-empty map, field by field. -/
theorem calculateStats_some (env : Env) (hv : env.Valid) (m : GoMap Int) (hne : m.len ≠ 0)
    (stats : Stats) (h : calculateStats env m = some stats) :
    (∀ k ∈ m.keys, 7 ≤ k.length) ∧
    stats.TotalMessages = wrapInt64 m.sumValues ∧
    stats.ActiveDays = (m.len : Int) ∧
    some stats.DateRange.1 = (sortStrings m.keys).head? ∧
    some stats.DateRange.2 = (sortStrings m.keys).getLast? ∧
    stats.MonthlyMessages = monthlyOfDays m ∧
    stats.TopDays = ((sortedDays env m).take 10).map (fun d => (d.date, d.count)) ∧
    stats.PeakDay = (sortedDays env m).head?.map (fun d => (d.date, d.count)) ∧
    stats.PeakMonth = (peakOf env (monthlyOfDays m)).1 ∧
    stats.AvgPerDay
      = (Float64.ofInt (wrapInt64 m.sumValues)).div (Float64.ofInt (m.len : Int)) ∧
    stats.DailyCounts = m := by
  unfold calculateStats at h
  rw [if_neg hne] at h
  simp only [bind, pure] at h
  rw [monthly_of_range env hv m] at h
  have hdates : sortStrings ((env.rangeDates m.entries).map Prod.fst) = sortStrings m.keys :=
    sortStrings_perm ((hv.rangeDates m.entries).map _)
  have htotal : (env.rangeTotals m.entries).foldl (fun total e => wrapInt64 (total + e.2)) 0
      = wrapInt64 m.sumValues := by
    have h0 : (0 : Int) = wrapInt64 0 := by decide
    rw [h0, foldl_total, Int.zero_add]
    congr 1
    exact ((hv.rangeTotals m.entries).map _).sum_eq
  by_cases hk : ∀ k ∈ m.keys, 7 ≤ k.length
  · rw [if_pos hk] at h
    simp only [Option.some_bind] at h
    change ((sortedDays env m).head?.bind _) = _ at h
    cases hd : (sortedDays env m).head? with
    | none => rw [hd] at h; simp at h
    | some first =>
      rw [hd, hdates, htotal] at h
      simp only [Option.some_bind] at h
      cases hf : (sortStrings m.keys).head? with
      | none => rw [hf] at h; simp at h
      | some fd =>
        rw [hf] at h
        simp only [Option.some_bind] at h
        cases hl : (sortStrings m.keys).getLast? with
        | none => rw [hl] at h; simp at h
        | some ld =>
          rw [hl] at h
          simp only [Option.some_bind, Option.some.injEq] at h
          subst h
          exact ⟨hk, rfl, rfl, rfl, rfl, rfl, rfl, rfl, rfl, rfl, rfl⟩
  · rw [if_neg hk] at h
    simp at h

/-- On a non-empty map `calculateStats` returns exactly when no key is shorter
than 7 bytes; otherwise `date[:7]` panics. -/
theorem calculateStats_isSome (env : Env) (hv : env.Valid) (m : GoMap Int) (hne : m.len ≠ 0) :
    (∃ stats, calculateStats env m = some stats) ↔ ∀ k ∈ m.keys, 7 ≤ k.length := by
  constructor
  · rintro ⟨stats, h⟩
    exact (calculateStats_some env hv m hne stats h).1
  · intro hk
    unfold calculateStats
    rw [if_neg hne]
    simp only [bind, pure]
    rw [monthly_of_range env hv m, if_pos hk]
    simp only [Option.some_bind]
    change ∃ stats, ((sortedDays env m).head?.bind _) = some stats
    obtain ⟨first, rest, hd⟩ := List.exists_cons_of_ne_nil (sortedDays_ne_nil env hv m hne)
    obtain ⟨fd, drest, hf⟩ := List.exists_cons_of_ne_nil (sortedDates_ne_nil env hv m hne)
    rw [hd, hf]
    simp only [List.head?_cons, Option.some_bind, List.getLast?_cons]
    exact ⟨_, rfl⟩

theorem stableSort_perm (l : List dayCount) : (stableSort l).Perm l :=
  List.perm_insertionSort _ l

theorem stableSort_sorted (l : List dayCount) :
    (stableSort l).Pairwise (fun a b => ¬ less b a) := by
  haveI : IsTotal dayCount (fun a b => b.count ≤ a.count) := ⟨fun a b => le_total b.count a.count⟩
  haveI : IsTrans dayCount (fun a b => b.count ≤ a.count) :=
    ⟨fun _ _ _ hab hbc => le_trans hbc hab⟩
  have h : (stableSort l).Pairwise (fun a b => b.count ≤ a.count) :=
    List.sorted_insertionSort (fun (a b : dayCount) => b.count ≤ a.count) l
  exact h.imp (fun hab => not_lt.mpr hab)

theorem envForward_valid : envForward.Valid :=
  ⟨fun l => List.Perm.refl l, fun l => List.Perm.refl l, fun l => List.Perm.refl l,
    fun l => List.Perm.refl l, fun l => List.Perm.refl l, stableSort_perm, stableSort_sorted⟩

theorem envBackward_valid : envBackward.Valid :=
  ⟨List.reverse_perm, List.reverse_perm, List.reverse_perm, List.reverse_perm,
    List.reverse_perm, stableSort_perm, stableSort_sorted⟩

theorem mem_sortedDays (env : Env) (hv : env.Valid) (m : GoMap Int) (d : dayCount) :
    d ∈ sortedDays env m ↔ m.get? d.date = some d.count := by
  rw [(sortedDays_perm env hv m).mem_iff, GoMap.get?_eq_some_iff, List.mem_map]
  constructor
  · rintro ⟨e, he, rfl⟩
    exact he
  · intro h
    exact ⟨(d.date, d.count), h, rfl⟩

theorem sortedDays_dates_nodup (env : Env) (hv : env.Valid) (m : GoMap Int) :
    ((sortedDays env m).map (fun d => d.date)).Nodup := by
  have hp : ((sortedDays env m).map (fun d => d.date)).Perm m.keys := by
    have := (sortedDays_perm env hv m).map (fun d => d.date)
    simpa [GoMap.keys, List.map_map, Function.comp_def] using this
  exact hp.nodup_iff.mpr (List.Sorted.nodup m.sorted)

/-! ## C3: the ranking of the days -/

/-- C3: on a non-empty DailyCounts with n dates, `calculateStats` returns when
every key has at least 7 bytes (otherwise `date[:7]` panics), and the TopDays
list it returns has exactly min(10, n) entries, each a (date, count) pair of
DailyCounts, with no date repeated, in non-increasing order of count; every
date left out of TopDays has a count no greater than the count of every
listed date.  This holds for every enumeration order of the map and every
outcome of `sort.Slice`. -/
theorem calculateStats_topDays (env : Env) (hv : env.Valid) (m : GoMap Int) (hne : m.len ≠ 0) :
    ((∀ k ∈ m.keys, 7 ≤ k.length) → ∃ stats, calculateStats env m = some stats) ∧
    ∀ stats, calculateStats env m = some stats →
      stats.TopDays.length = min 10 m.len ∧
      (∀ e ∈ stats.TopDays, m.get? e.1 = some e.2) ∧
      (stats.TopDays.map Prod.fst).Nodup ∧
      stats.TopDays.Pairwise (fun a b => b.2 ≤ a.2) ∧
      ∀ k c, m.get? k = some c → k ∉ stats.TopDays.map Prod.fst →
        ∀ e ∈ stats.TopDays, c ≤ e.2 := by
  refine ⟨(calculateStats_isSome env hv m hne).mpr, ?_⟩
  intro stats h
  have htop := (calculateStats_some env hv m hne stats h).2.2.2.2.2.2.1
  have hsorted : (sortedDays env m).Pairwise (fun a b => ¬ less b a) := hv.sortSorted _
  rw [htop]
  refine ⟨?_, ?_, ?_, ?_, ?_⟩
  · rw [List.length_map, List.length_take, (sortedDays_perm env hv m).length_eq, List.length_map]
    rfl
  · intro e he
    obtain ⟨d, hd, rfl⟩ := List.mem_map.mp he
    exact (mem_sortedDays env hv m d).mp (List.mem_of_mem_take hd)
  · rw [List.map_map]
    exact ((List.take_sublist 10 (sortedDays env m)).map _).nodup
      (sortedDays_dates_nodup env hv m)
  · rw [List.pairwise_map]
    exact (hsorted.sublist (List.take_sublist 10 _)).imp (fun hab => not_lt.mp hab)
  · intro k c hkc hnot e he
    obtain ⟨d, hd, rfl⟩ := List.mem_map.mp he
    have hmem : dayCount.mk k c ∈ sortedDays env m := (mem_sortedDays env hv m ⟨k, c⟩).mpr hkc
    rw [← List.take_append_drop 10 (sortedDays env m)] at hmem hsorted
    rcases List.mem_append.mp hmem with hin | hin
    · exact absurd (List.mem_map.mpr ⟨(k, c), List.mem_map.mpr ⟨⟨k, c⟩, hin, rfl⟩, rfl⟩) hnot
    · exact not_lt.mp ((List.pairwise_append.mp hsorted).2.2 d hd ⟨k, c⟩ hin)

/-- The witness of C3: with counts 5, 9 and 9 both 9-count days are ranked
above the 5-count day. -/
theorem calculateStats_topDays_witness :
    (((∀ k ∈ sampleDays.keys, 7 ≤ k.length) → ∃ stats, calculateStats envForward sampleDays = some stats) ∧
    ∀ stats, calculateStats envForward sampleDays = some stats →
      stats.TopDays.length = min 10 sampleDays.len ∧
      (∀ e ∈ stats.TopDays, sampleDays.get? e.1 = some e.2) ∧
      (stats.TopDays.map Prod.fst).Nodup ∧
      stats.TopDays.Pairwise (fun a b => b.2 ≤ a.2) ∧
      ∀ k c, sampleDays.get? k = some c → k ∉ stats.TopDays.map Prod.fst →
        ∀ e ∈ stats.TopDays, c ≤ e.2) ∧
    (calculateStats envForward sampleDays).map (fun s => s.TopDays)
      = some [(ascii "2024-01-02", 9), (ascii "2024-01-03", 9), (ascii "2024-01-01", 5)] :=
  ⟨calculateStats_topDays envForward envForward_valid sampleDays (by decide), by decide⟩

/-! ## C6: the monthly re-bucketing -/

theorem monthlyOfDays_get? (m : GoMap Int) (month : GoString) :
    (monthlyOfDays m).get? month
      = if m.entries.filter (fun e => decide (e.1.take 7 = month)) = [] then none
        else some (wrapInt64 (monthSum m month)) := by
  unfold monthlyOfDays monthSum
  rw [GoMap.get?_addWrapAll, List.filter_map]
  simp only [GoMap.get?_empty, Option.getD_none, zero_add, List.map_eq_nil_iff, List.map_map]
  rfl

theorem monthlyOfDays_wrap_sumValues (m : GoMap Int) :
    wrapInt64 (monthlyOfDays m).sumValues = wrapInt64 m.sumValues := by
  unfold monthlyOfDays
  rw [GoMap.wrap_sumValues_addWrapAll, List.map_map]
  simp only [GoMap.sumValues, GoMap.empty, List.map_nil, List.sum_nil, zero_add]
  rfl

theorem monthlyOfDays_keys (m : GoMap Int) (month : GoString) :
    month ∈ (monthlyOfDays m).keys ↔ ∃ k ∈ m.keys, k.take 7 = month := by
  rw [GoMap.mem_keys_iff, monthlyOfDays_get?]
  constructor
  · rintro ⟨v, hv'⟩
    by_cases hnil : m.entries.filter (fun e => decide (e.1.take 7 = month)) = []
    · rw [if_pos hnil] at hv'; exact absurd hv' (by simp)
    · obtain ⟨e, he⟩ := List.exists_mem_of_ne_nil _ hnil
      rw [List.mem_filter] at he
      exact ⟨e.1, List.mem_map_of_mem _ he.1, of_decide_eq_true he.2⟩
  · rintro ⟨k, hk, hkm⟩
    obtain ⟨e, he, rfl⟩ := List.mem_map.mp hk
    have hmem : e ∈ m.entries.filter (fun e => decide (e.1.take 7 = month)) :=
      List.mem_filter.mpr ⟨he, decide_eq_true hkm⟩
    rw [if_neg (List.ne_nil_of_mem hmem)]
    exact ⟨_, rfl⟩

theorem monthlyOfDays_value (m : GoMap Int) (month : GoString) (v : Int)
    (h : (monthlyOfDays m).get? month = some v) :
    v = wrapInt64 (monthSum m month) ∧
      m.entries.filter (fun e => decide (e.1.take 7 = month)) ≠ [] := by
  rw [monthlyOfDays_get?] at h
  by_cases hnil : m.entries.filter (fun e => decide (e.1.take 7 = month)) = []
  · rw [if_pos hnil] at h; exact absurd h (by simp)
  · rw [if_neg hnil] at h
    exact ⟨(Option.some.inj h).symm, hnil⟩

theorem monthSum_le (m : GoMap Int) (hnn : ∀ e ∈ m.entries, 0 ≤ e.2) (month : GoString) :
    0 ≤ monthSum m month ∧ monthSum m month ≤ m.sumValues := by
  unfold monthSum GoMap.sumValues
  constructor
  · apply List.sum_nonneg
    intro x hx
    obtain ⟨e, he, rfl⟩ := List.mem_map.mp hx
    exact hnn e (List.mem_of_mem_filter he)
  · apply List.Sublist.sum_le_sum ((List.filter_sublist m.entries).map Prod.snd)
    intro x hx
    obtain ⟨e, he, rfl⟩ := List.mem_map.mp hx
    exact hnn e he

/-- C6, as stated, fails: for two days of one month with `2^62` messages each
(keys of 10 bytes) the counts of the month sum to `2^63`, and the
MonthlyMessages that `calculateStats` returns holds `-2^63` for the month: the
addition on `int` wraps around. -/
theorem calculateStats_monthly_overflow :
    (∀ k ∈ overflowDays.keys, 7 ≤ k.length) ∧
    monthSum overflowDays (ascii "2024-01") = 9223372036854775808 ∧
    (calculateStats envForward overflowDays).map (fun s => s.MonthlyMessages.entries)
      = some [(ascii "2024-01", -9223372036854775808)] := by
  decide

/-- C6 (amended): on a non-empty DailyCounts whose keys have at least 7 bytes,
`calculateStats` returns; the keys of MonthlyMessages are exactly the 7-byte
prefixes of the date keys, and the value at each month is the sum of the
counts of all dates with that prefix reduced to the range of `int` (wrapped
around modulo `2^64`), hence that sum itself whenever it lies in the range;
the values of MonthlyMessages sum to TotalMessages modulo `2^64`.  When no
count is negative and the counts sum to less than `2^63` (as for the output of
the daily aggregator), every month holds the exact sum of its counts and the
values of MonthlyMessages sum to TotalMessages. -/
theorem calculateStats_monthly (env : Env) (hv : env.Valid) (m : GoMap Int) (hne : m.len ≠ 0)
    (hkeys : ∀ k ∈ m.keys, 7 ≤ k.length) :
    ∃ stats, calculateStats env m = some stats ∧
      (∀ month, month ∈ stats.MonthlyMessages.keys ↔ ∃ k ∈ m.keys, k.take 7 = month) ∧
      (∀ month v, stats.MonthlyMessages.get? month = some v →
        v = wrapInt64 (monthSum m month) ∧
        (-9223372036854775808 ≤ monthSum m month → monthSum m month < 9223372036854775808 →
          v = monthSum m month)) ∧
      wrapInt64 stats.MonthlyMessages.sumValues = stats.TotalMessages ∧
      ((∀ e ∈ m.entries, 0 ≤ e.2) → m.sumValues < 9223372036854775808 →
        (∀ month v, stats.MonthlyMessages.get? month = some v → v = monthSum m month) ∧
        stats.MonthlyMessages.sumValues = stats.TotalMessages ∧
        stats.TotalMessages = m.sumValues) := by
  obtain ⟨stats, h⟩ := (calculateStats_isSome env hv m hne).mpr hkeys
  have hs := calculateStats_some env hv m hne stats h
  have hmm : stats.MonthlyMessages = monthlyOfDays m := hs.2.2.2.2.2.1
  refine ⟨stats, h, ?_, ?_, ?_, ?_⟩
  · intro month
    rw [hmm]
    exact monthlyOfDays_keys m month
  · intro month v hget
    rw [hmm] at hget
    have hv' := (monthlyOfDays_value m month v hget).1
    exact ⟨hv', fun h1 h2 => by rw [hv', wrapInt64_of_inRange _ ⟨h1, h2⟩]⟩
  · rw [hmm, hs.2.1]
    exact monthlyOfDays_wrap_sumValues m
  · intro hnn hfit
    have hsum0 : 0 ≤ m.sumValues := by
      unfold GoMap.sumValues
      apply List.sum_nonneg
      intro x hx
      obtain ⟨e, he, rfl⟩ := List.mem_map.mp hx
      exact hnn e he
    have htotal : stats.TotalMessages = m.sumValues := by
      rw [hs.2.1, wrapInt64_of_inRange _ ⟨by omega, hfit⟩]
    have hexact : monthlyOfDays m
        = GoMap.empty.addAll (m.entries.map (fun e => (e.1.take 7, e.2))) := by
      unfold monthlyOfDays
      apply GoMap.addWrapAll_eq_addAll
      · intro k v hkv
        rw [GoMap.get?_empty] at hkv
        exact absurd hkv (by simp)
      · intro e he
        obtain ⟨e', he', rfl⟩ := List.mem_map.mp he
        exact hnn e' he'
      · rw [List.map_map]
        have : (GoMap.empty : GoMap Int).sumValues = 0 := rfl
        rw [this, zero_add]
        exact hfit
    refine ⟨?_, ?_, htotal⟩
    · intro month v hget
      rw [hmm] at hget
      have hv' := (monthlyOfDays_value m month v hget).1
      obtain ⟨h1, h2⟩ := monthSum_le m hnn month
      rw [hv', wrapInt64_of_inRange _ ⟨by omega, by omega⟩]
    · rw [hmm, htotal, hexact, GoMap.sumValues_addAll, List.map_map]
      have : (GoMap.empty : GoMap Int).sumValues = 0 := rfl
      rw [this, zero_add]
      rfl

/-- The witness of C6: "2024-03-15" with 2 and "2024-03-28" with 3 give
"2024-03" with 5. -/
theorem calculateStats_monthly_witness :
    (∃ stats, calculateStats envForward marchDays = some stats ∧
      (∀ month, month ∈ stats.MonthlyMessages.keys ↔ ∃ k ∈ marchDays.keys, k.take 7 = month) ∧
      (∀ month v, stats.MonthlyMessages.get? month = some v →
        v = wrapInt64 (monthSum marchDays month) ∧
        (-9223372036854775808 ≤ monthSum marchDays month →
          monthSum marchDays month < 9223372036854775808 → v = monthSum marchDays month)) ∧
      wrapInt64 stats.MonthlyMessages.sumValues = stats.TotalMessages ∧
      ((∀ e ∈ marchDays.entries, 0 ≤ e.2) → marchDays.sumValues < 9223372036854775808 →
        (∀ month v, stats.MonthlyMessages.get? month = some v → v = monthSum marchDays month) ∧
        stats.MonthlyMessages.sumValues = stats.TotalMessages ∧
        stats.TotalMessages = marchDays.sumValues)) ∧
    (∀ e ∈ marchDays.entries, 0 ≤ e.2) ∧ marchDays.sumValues < 9223372036854775808 ∧
    (calculateStats envForward marchDays).map (fun s => s.MonthlyMessages.entries)
      = some [(ascii "2024-03", 5)] :=
  ⟨calculateStats_monthly envForward envForward_valid marchDays (by decide) (by decide),
    by decide, by decide, by decide⟩

/-! ## C7: the peak month -/

theorem foldl_peakStep (l : List (GoString × Int)) (st : Option (GoString × Int) × Int) :
    st.2 ≤ (l.foldl peakStep st).2 ∧
    (∀ e ∈ l, e.2 ≤ (l.foldl peakStep st).2) ∧
    ((l.foldl peakStep st = st ∧ ∀ e ∈ l, e.2 ≤ st.2) ∨
      ∃ e ∈ l, l.foldl peakStep st = (some e, e.2) ∧ st.2 < e.2) := by
  induction l generalizing st with
  | nil => exact ⟨le_refl _, fun e he => absurd he (List.not_mem_nil e), Or.inl ⟨rfl, fun e he => absurd he (List.not_mem_nil e)⟩⟩
  | cons e rest ih =>
    rw [List.foldl_cons]
    obtain ⟨ih1, ih2, ih3⟩ := ih (peakStep st e)
    by_cases hgt : e.2 > st.2
    · have hst : peakStep st e = (some e, e.2) := by
        unfold peakStep
        rw [if_pos hgt]
      rw [hst] at ih1 ih2 ih3 ⊢
      simp only at ih1
      refine ⟨le_trans (le_of_lt hgt) ih1, ?_, Or.inr ?_⟩
      · intro e' he'
        rcases List.mem_cons.mp he' with rfl | he'
        · exact ih1
        · exact ih2 e' he'
      · rcases ih3 with ⟨h1, _⟩ | ⟨e', he', h1, h2⟩
        · exact ⟨e, List.mem_cons_self _ _, h1, hgt⟩
        · exact ⟨e', List.mem_cons_of_mem _ he', h1, lt_trans hgt h2⟩
    · have hst : peakStep st e = st := by
        unfold peakStep
        rw [if_neg hgt]
      rw [hst] at ih1 ih2 ih3 ⊢
      refine ⟨ih1, ?_, ?_⟩
      · intro e' he'
        rcases List.mem_cons.mp he' with rfl | he'
        · exact le_trans (not_lt.mp hgt) ih1
        · exact ih2 e' he'
      · rcases ih3 with ⟨h1, h2⟩ | ⟨e', he', h1, h2⟩
        · refine Or.inl ⟨h1, ?_⟩
          intro e' he'
          rcases List.mem_cons.mp he' with rfl | he'
          · exact not_lt.mp hgt
          · exact h2 e' he'
        · exact Or.inr ⟨e', List.mem_cons_of_mem _ he', h1, h2⟩

theorem monthlyOfDays_pos (m : GoMap Int) (hpos : ∀ e ∈ m.entries, 0 < e.2)
    (hfit : m.sumValues < 9223372036854775808)
    (month : GoString) (v : Int) (h : (monthlyOfDays m).get? month = some v) : 0 < v := by
  obtain ⟨hv', hnil⟩ := monthlyOfDays_value m month v h
  have hnn : ∀ e ∈ m.entries, 0 ≤ e.2 := fun e he => le_of_lt (hpos e he)
  obtain ⟨h1, h2⟩ := monthSum_le m hnn month
  rw [hv', wrapInt64_of_inRange _ ⟨by omega, by omega⟩]
  unfold monthSum
  apply List.sum_pos
  · intro x hx
    obtain ⟨e, he, rfl⟩ := List.mem_map.mp hx
    exact hpos e (List.mem_of_mem_filter he)
  · intro hmap
    exact hnil (List.map_eq_nil_iff.mp hmap)

/-- C7, as stated, fails: for two days of one month with `2^62` messages each,
a non-empty DailyCounts whose counts are all positive, the total of the month
wraps around to `-2^63`, no month exceeds 0 and `calculateStats` returns
PeakMonth at its nil zero value. -/
theorem calculateStats_peakMonth_overflow :
    overflowDays.len ≠ 0 ∧ (∀ e ∈ overflowDays.entries, 0 < e.2) ∧
    (calculateStats envForward overflowDays).map (fun s => s.PeakMonth) = some none := by
  decide

/-- C7 (amended): on a non-empty DailyCounts whose counts are all positive and
sum to less than `2^63` (as the daily aggregator produces), `calculateStats`
returns when every key has at least 7 bytes (otherwise `date[:7]` panics),
and the PeakMonth it returns is set: it is a (month, total) pair of
MonthlyMessages and no month has a larger total.  This holds for every
enumeration order of the maps. -/
theorem calculateStats_peakMonth (env : Env) (hv : env.Valid) (m : GoMap Int) (hne : m.len ≠ 0)
    (hpos : ∀ e ∈ m.entries, 0 < e.2) (hfit : m.sumValues < 9223372036854775808) :
    ((∀ k ∈ m.keys, 7 ≤ k.length) → ∃ stats, calculateStats env m = some stats) ∧
    ∀ stats, calculateStats env m = some stats →
      ∃ month total, stats.PeakMonth = some (month, total) ∧
        stats.MonthlyMessages.get? month = some total ∧
        ∀ k v, stats.MonthlyMessages.get? k = some v → v ≤ total := by
  refine ⟨(calculateStats_isSome env hv m hne).mpr, ?_⟩
  intro stats h
  have hs := calculateStats_some env hv m hne stats h
  rw [hs.2.2.2.2.2.1, hs.2.2.2.2.2.2.2.2.1]
  have hperm := hv.rangeMonths (monthlyOfDays m).entries
  obtain ⟨_, hmax, hcase⟩ := foldl_peakStep (env.rangeMonths (monthlyOfDays m).entries) (none, 0)
  have hex : ∃ e, e ∈ (monthlyOfDays m).entries := by
    cases hm : m.entries with
    | nil => exact absurd (by unfold GoMap.len; rw [hm]; rfl) hne
    | cons e rest =>
      have hmem : e ∈ m.entries.filter (fun e' => decide (e'.1.take 7 = e.1.take 7)) :=
        List.mem_filter.mpr ⟨by rw [hm]; exact List.mem_cons_self _ _, decide_eq_true rfl⟩
      have hget := monthlyOfDays_get? m (e.1.take 7)
      rw [if_neg (List.ne_nil_of_mem hmem)] at hget
      exact ⟨_, (GoMap.get?_eq_some_iff _ _ _).mp hget⟩
  obtain ⟨e₀, he₀⟩ := hex
  have hpos₀ : 0 < e₀.2 :=
    monthlyOfDays_pos m hpos hfit e₀.1 e₀.2 ((GoMap.get?_eq_some_iff _ _ _).mpr he₀)
  rcases hcase with ⟨_, hall⟩ | ⟨e, he, hres, _⟩
  · exact absurd (hall e₀ (hperm.mem_iff.mpr he₀)) (not_le.mpr hpos₀)
  · refine ⟨e.1, e.2, ?_, ?_, ?_⟩
    · unfold peakOf
      rw [hres]
    · exact (GoMap.get?_eq_some_iff _ _ _).mpr (hperm.mem_iff.mp he)
    · intro k v hkv
      have := hmax (k, v) (hperm.mem_iff.mpr ((GoMap.get?_eq_some_iff _ _ _).mp hkv))
      rw [hres] at this
      exact this

/-- A witness of C7: three days of January 2024 with 5, 9 and 9 messages; the
peak month is "2024-01" with 23. -/
theorem calculateStats_peakMonth_witness :
    (((∀ k ∈ sampleDays.keys, 7 ≤ k.length) →
        ∃ stats, calculateStats envBackward sampleDays = some stats) ∧
    ∀ stats, calculateStats envBackward sampleDays = some stats →
      ∃ month total, stats.PeakMonth = some (month, total) ∧
        stats.MonthlyMessages.get? month = some total ∧
        ∀ k v, stats.MonthlyMessages.get? k = some v → v ≤ total) ∧
    (calculateStats envBackward sampleDays).map (fun s => s.PeakMonth)
      = some (some (ascii "2024-01", 23)) :=
  ⟨calculateStats_peakMonth envBackward envBackward_valid sampleDays (by decide) (by decide)
    (by decide), by decide⟩

/-! ## Floating point -/

theorem bitLenAux_zero (fuel : Nat) : bitLenAux fuel 0 = 0 := by
  cases fuel <;> simp [bitLenAux]

theorem bitLenAux_spec (fuel n : Nat) (h : n ≤ fuel) :
    n < 2 ^ bitLenAux fuel n ∧ (0 < n → 2 ^ (bitLenAux fuel n - 1) ≤ n) := by
  induction fuel generalizing n with
  | zero =>
    have : n = 0 := by omega
    subst this
    simp [bitLenAux]
  | succ fuel ih =>
    by_cases hn : n = 0
    · subst hn
      simp [bitLenAux]
    · have hhalf : n / 2 ≤ fuel := by omega
      obtain ⟨ih1, ih2⟩ := ih (n / 2) hhalf
      have hdef : bitLenAux (fuel + 1) n = bitLenAux fuel (n / 2) + 1 := by
        simp [bitLenAux, hn]
      rw [hdef]
      refine ⟨?_, fun _ => ?_⟩
      · rw [pow_succ]
        omega
      · simp only [Nat.add_sub_cancel]
        by_cases h2 : n / 2 = 0
        · rw [h2, bitLenAux_zero]
          simp
          omega
        · have h3 := ih2 (by omega)
          have hb : 1 ≤ bitLenAux fuel (n / 2) := by
            by_contra hcon
            have : bitLenAux fuel (n / 2) = 0 := by omega
            rw [this] at ih1
            simp at ih1
            exact h2 ih1
          have hpow : 2 ^ bitLenAux fuel (n / 2) = 2 * 2 ^ (bitLenAux fuel (n / 2) - 1) := by
            conv_lhs => rw [show bitLenAux fuel (n / 2) = (bitLenAux fuel (n / 2) - 1) + 1 by omega]
            rw [pow_succ]; ring
          rw [hpow]
          omega

theorem bitLen_spec (n : Nat) (hn : 0 < n) :
    1 ≤ bitLen n ∧ 2 ^ (bitLen n - 1) ≤ n ∧ n < 2 ^ bitLen n := by
  obtain ⟨h1, h2⟩ := bitLenAux_spec n n (le_refl n)
  refine ⟨?_, h2 hn, h1⟩
  by_contra hcon
  have : bitLen n = 0 := by omega
  unfold bitLen at this
  rw [this] at h1
  simp at h1
  omega

theorem roundHalfEven_mul (a den : Nat) (hden : 0 < den) : roundHalfEven (a * den) den = a := by
  unfold roundHalfEven
  simp only [Nat.mul_mod_left, Nat.mul_div_cancel _ hden]
  rw [if_pos (by omega)]

theorem roundRatio_mul (neg : Bool) (k d : Nat) (hk : 0 < k) (hk' : k < 2 ^ 53) (hd : 0 < d) :
    roundRatio neg (k * d) d
      = ⟨if neg then -((k * 2 ^ (53 - bitLen k) : Nat) : Int)
          else ((k * 2 ^ (53 - bitLen k) : Nat) : Int), -((53 - bitLen k : Nat) : Int)⟩ := by
  obtain ⟨hb1, hb2, hb3⟩ := bitLen_spec k hk
  have hle : bitLen k ≤ 53 := by
    by_contra hcon
    have h54 : 53 ≤ bitLen k - 1 := by omega
    have : 2 ^ 53 ≤ 2 ^ (bitLen k - 1) := Nat.pow_le_pow_right (by norm_num) h54
    omega
  have hne : ¬ (k * d = 0 ∨ d = 0) := by
    intro h
    rcases h with h | h
    · rcases Nat.mul_eq_zero.mp h with h | h <;> omega
    · omega
  have hdle : d ≤ k * d := Nat.le_mul_of_pos_left d hk
  have hexp : ratioExponent (k * d) d = (bitLen k : Int) - 1 := by
    unfold ratioExponent
    rw [if_pos hdle, Nat.mul_div_cancel _ hd]
  have hs : (52 : Int) - ratioExponent (k * d) d = ((53 - bitLen k : Nat) : Int) := by
    rw [hexp]; omega
  have hm : roundHalfEven (k * d * 2 ^ (53 - bitLen k)) (d * 2 ^ 0) = k * 2 ^ (53 - bitLen k) := by
    have : k * d * 2 ^ (53 - bitLen k) = (k * 2 ^ (53 - bitLen k)) * (d * 2 ^ 0) := by ring
    rw [this]
    exact roundHalfEven_mul _ _ (by simpa using hd)
  have hlt : k * 2 ^ (53 - bitLen k) ≠ 2 ^ 53 := by
    have h1 : k * 2 ^ (53 - bitLen k) < 2 ^ bitLen k * 2 ^ (53 - bitLen k) :=
      Nat.mul_lt_mul_of_pos_right hb3 (Nat.two_pow_pos _)
    rw [← pow_add, show bitLen k + (53 - bitLen k) = 53 by omega] at h1
    omega
  unfold roundRatio
  rw [if_neg hne]
  simp only [hs, Int.toNat_ofNat, Int.toNat_neg_nat, hm, if_neg hlt]

theorem Float64.ofInt_zero : Float64.ofInt 0 = ⟨0, 0⟩ := by decide

theorem Float64.ofInt_pos (x : Int) (hx : 0 < x) (hx' : x < 2 ^ 53) :
    Float64.ofInt x = ⟨((x.natAbs * 2 ^ (53 - bitLen x.natAbs) : Nat) : Int),
      -((53 - bitLen x.natAbs : Nat) : Int)⟩ := by
  unfold Float64.ofInt
  have h := roundRatio_mul (decide (x < 0)) x.natAbs 1 (by omega) (by omega) (by norm_num)
  rw [Nat.mul_one] at h
  rw [h]
  have hneg : decide (x < 0) = false := decide_eq_false (by omega)
  rw [hneg]
  simp

theorem Float64.ofInt_neg (x : Int) (hx : x < 0) (hx' : -(2 ^ 53) < x) :
    Float64.ofInt x = ⟨-((x.natAbs * 2 ^ (53 - bitLen x.natAbs) : Nat) : Int),
      -((53 - bitLen x.natAbs : Nat) : Int)⟩ := by
  unfold Float64.ofInt
  have h := roundRatio_mul (decide (x < 0)) x.natAbs 1 (by omega) (by omega) (by norm_num)
  rw [Nat.mul_one] at h
  rw [h]
  have hneg : decide (x < 0) = true := decide_eq_true hx
  rw [hneg]
  simp

theorem toRat_scaled (neg : Bool) (k t : Nat) :
    (Float64.mk (if neg then -((k * 2 ^ t : Nat) : Int) else ((k * 2 ^ t : Nat) : Int))
      (-(t : Int))).toRat = if neg then -(k : ℚ) else (k : ℚ) := by
  unfold Float64.toRat
  have h2 : ((2 : ℚ) ^ t) * (2 : ℚ) ^ (-(t : Int)) = 1 := by
    rw [zpow_neg, zpow_natCast]
    exact mul_inv_cancel₀ (pow_ne_zero _ (by norm_num))
  cases neg
  · simp only [Bool.false_eq_true, if_false]
    push_cast
    rw [mul_assoc, h2, mul_one]
  · simp only [if_true]
    push_cast
    rw [neg_mul, mul_assoc, h2, mul_one]

theorem roundHalfEven_error (num den : Nat) (hden : 0 < den) :
    |((roundHalfEven num den : Nat) : ℚ) - (num : ℚ) / (den : ℚ)| ≤ 1 / 2 := by
  have hdq : (0 : ℚ) < (den : ℚ) := by exact_mod_cast hden
  have hsplit : (num : ℚ) = (den : ℚ) * ((num / den : Nat) : ℚ) + ((num % den : Nat) : ℚ) := by
    exact_mod_cast (Nat.div_add_mod num den).symm
  have hr : num % den < den := Nat.mod_lt _ hden
  have hrq : ((num % den : Nat) : ℚ) < (den : ℚ) := by exact_mod_cast hr
  have hr0 : (0 : ℚ) ≤ ((num % den : Nat) : ℚ) := Nat.cast_nonneg _
  rw [abs_le]
  unfold roundHalfEven
  simp only
  by_cases h1 : 2 * (num % den) < den
  · have h1q : 2 * ((num % den : Nat) : ℚ) < (den : ℚ) := by exact_mod_cast h1
    rw [if_pos h1]
    constructor
    · rw [neg_le_sub_iff_le_add, div_le_iff₀ hdq]
      linarith
    · rw [sub_le_iff_le_add, ← sub_le_iff_le_add', le_div_iff₀ hdq]
      linarith
  · rw [if_neg h1]
    by_cases h2 : den < 2 * (num % den)
    · have h2q : (den : ℚ) < 2 * ((num % den : Nat) : ℚ) := by exact_mod_cast h2
      rw [if_pos h2]
      push_cast
      constructor
      · rw [neg_le_sub_iff_le_add, div_le_iff₀ hdq]
        linarith
      · rw [sub_le_iff_le_add, ← sub_le_iff_le_add', le_div_iff₀ hdq]
        linarith
    · rw [if_neg h2]
      have h3 : 2 * (num % den) = den := by omega
      have h3q : 2 * ((num % den : Nat) : ℚ) = (den : ℚ) := by exact_mod_cast h3
      by_cases h4 : num / den % 2 = 0
      · rw [if_pos h4]
        constructor
        · rw [neg_le_sub_iff_le_add, div_le_iff₀ hdq]
          linarith
        · rw [sub_le_iff_le_add, ← sub_le_iff_le_add', le_div_iff₀ hdq]
          linarith
      · rw [if_neg h4]
        push_cast
        constructor
        · rw [neg_le_sub_iff_le_add, div_le_iff₀ hdq]
          linarith
        · rw [sub_le_iff_le_add, ← sub_le_iff_le_add', le_div_iff₀ hdq]
          linarith

theorem ratioExponent_spec (n d : Nat) (hn : 0 < n) (hd : 0 < d) :
    (2 : ℚ) ^ (ratioExponent n d) ≤ (n : ℚ) / (d : ℚ) ∧
    (n : ℚ) / (d : ℚ) < (2 : ℚ) ^ (ratioExponent n d + 1) := by
  have hdq : (0 : ℚ) < (d : ℚ) := by exact_mod_cast hd
  unfold ratioExponent
  by_cases h : d ≤ n
  · rw [if_pos h]
    obtain ⟨hb1, hb2, hb3⟩ := bitLen_spec (n / d) (Nat.div_pos h hd)
    have e1 : ((bitLen (n / d) : Int) - 1) = ((bitLen (n / d) - 1 : Nat) : Int) := by omega
    have e2 : ((bitLen (n / d) : Int) - 1 + 1) = ((bitLen (n / d) : Nat) : Int) := by omega
    rw [e2, e1, zpow_natCast, zpow_natCast]
    constructor
    · rw [le_div_iff₀ hdq]
      have : 2 ^ (bitLen (n / d) - 1) * d ≤ n :=
        le_trans (Nat.mul_le_mul_right d hb2) (Nat.div_mul_le_self n d)
      exact_mod_cast this
    · rw [div_lt_iff₀ hdq]
      have h1 : n < d * (n / d + 1) := Nat.lt_mul_div_succ n hd
      have h2 : d * (n / d + 1) ≤ 2 ^ bitLen (n / d) * d := by
        rw [Nat.mul_comm]
        exact Nat.mul_le_mul_right d hb3
      have : n < 2 ^ bitLen (n / d) * d := lt_of_lt_of_le h1 h2
      exact_mod_cast this
  · rw [if_neg h]
    have hnq : (0 : ℚ) < (n : ℚ) := by exact_mod_cast hn
    have hf : 0 < (d - 1) / n := Nat.div_pos (by omega) hn
    obtain ⟨hb1, hb2, hb3⟩ := bitLen_spec ((d - 1) / n) hf
    have e2 : (-(bitLen ((d - 1) / n) : Int) + 1) = -((bitLen ((d - 1) / n) - 1 : Nat) : Int) := by
      omega
    rw [e2, zpow_neg, zpow_neg, zpow_natCast, zpow_natCast]
    have hp1 : (0 : ℚ) < 2 ^ bitLen ((d - 1) / n) := pow_pos (by norm_num) _
    have hp2 : (0 : ℚ) < 2 ^ (bitLen ((d - 1) / n) - 1) := pow_pos (by norm_num) _
    constructor
    · rw [inv_eq_one_div, div_le_div_iff₀ hp1 hdq, one_mul]
      have h1 : d - 1 < n * ((d - 1) / n + 1) := Nat.lt_mul_div_succ (d - 1) hn
      have h2 : n * ((d - 1) / n + 1) ≤ n * 2 ^ bitLen ((d - 1) / n) :=
        Nat.mul_le_mul_left n hb3
      have : d ≤ n * 2 ^ bitLen ((d - 1) / n) := by omega
      exact_mod_cast this
    · rw [inv_eq_one_div, div_lt_div_iff₀ hdq hp2, one_mul]
      have h1 : n * 2 ^ (bitLen ((d - 1) / n) - 1) ≤ n * ((d - 1) / n) :=
        Nat.mul_le_mul_left n hb2
      have h2 : n * ((d - 1) / n) ≤ d - 1 := Nat.mul_div_le (d - 1) n
      have : n * 2 ^ (bitLen ((d - 1) / n) - 1) < d := by omega
      exact_mod_cast this

theorem scaled_ratio (n d : Nat) (hd : 0 < d) (s : Int) :
    ((n * 2 ^ s.toNat : Nat) : ℚ) / ((d * 2 ^ (-s).toNat : Nat) : ℚ)
      = (n : ℚ) / (d : ℚ) * (2 : ℚ) ^ s := by
  have hdq : (d : ℚ) ≠ 0 := by
    have : d ≠ 0 := by omega
    exact_mod_cast this
  rcases Int.eq_nat_or_neg s with ⟨t, rfl | rfl⟩
  · have e1 : ((t : Int)).toNat = t := by omega
    have e2 : (-(t : Int)).toNat = 0 := by omega
    rw [e1, e2, zpow_natCast]
    push_cast
    field_simp
  · have e1 : (-(t : Int)).toNat = 0 := by omega
    have e2 : (- -(t : Int)).toNat = t := by omega
    rw [e1, e2, zpow_neg, zpow_natCast]
    push_cast
    field_simp

theorem roundRatio_toRat (neg : Bool) (n d : Nat) (hn : 0 < n) (hd : 0 < d) :
    (roundRatio neg n d).toRat
      = (if neg then -1 else 1)
        * ((roundHalfEven (n * 2 ^ (52 - ratioExponent n d).toNat)
            (d * 2 ^ (-(52 - ratioExponent n d)).toNat) : Nat) : ℚ)
        * (2 : ℚ) ^ (-(52 - ratioExponent n d)) := by
  have hne : ¬ (n = 0 ∨ d = 0) := by omega
  unfold roundRatio Float64.toRat
  rw [if_neg hne]
  simp only
  generalize (52 : Int) - ratioExponent n d = s
  generalize roundHalfEven (n * 2 ^ s.toNat) (d * 2 ^ (-s).toNat) = m
  by_cases hm : m = 2 ^ 53
  · rw [if_pos hm, hm]
    have h2 : (2 : ℚ) ^ (1 - s) = 2 * (2 : ℚ) ^ (-s) := by
      rw [show (1 : Int) - s = 1 + -s by ring, zpow_add₀ (by norm_num : (2 : ℚ) ≠ 0), zpow_one]
    cases neg
    · simp only [Bool.false_eq_true, if_false, h2]
      push_cast
      ring
    · simp only [if_true, h2]
      push_cast
      ring
  · rw [if_neg hm]
    cases neg
    · simp only [Bool.false_eq_true, if_false]
      push_cast
      ring
    · simp only [if_true]
      push_cast
      ring

/-- The rounding error of `roundRatio`: at most half a unit in the last place,
hence at most `2^-53` times the exact quotient. -/
theorem roundRatio_error (neg : Bool) (n d : Nat) (hn : 0 < n) (hd : 0 < d) :
    |(roundRatio neg n d).toRat - (if neg then -1 else 1) * ((n : ℚ) / (d : ℚ))|
      ≤ (n : ℚ) / (d : ℚ) / 2 ^ 53 := by
  obtain ⟨hlo, _⟩ := ratioExponent_spec n d hn hd
  have herr := roundHalfEven_error (n * 2 ^ (52 - ratioExponent n d).toNat)
    (d * 2 ^ (-(52 - ratioExponent n d)).toNat) (Nat.mul_pos hd (Nat.two_pow_pos _))
  rw [scaled_ratio n d hd] at herr
  rw [roundRatio_toRat neg n d hn hd]
  generalize ratioExponent n d = e at hlo herr ⊢
  generalize ((roundHalfEven (n * 2 ^ (52 - e).toNat) (d * 2 ^ (-(52 - e)).toNat) : Nat) : ℚ)
    = m at herr ⊢
  generalize (n : ℚ) / (d : ℚ) = x at hlo herr ⊢
  have hpos : (0 : ℚ) < (2 : ℚ) ^ (-(52 - e)) := zpow_pos (by norm_num) _
  have hmul : (2 : ℚ) ^ (52 - e) * (2 : ℚ) ^ (-(52 - e)) = 1 := by
    rw [← zpow_add₀ (by norm_num : (2 : ℚ) ≠ 0)]
    simp
  have hfac : (if neg then (-1 : ℚ) else 1) * m * (2 : ℚ) ^ (-(52 - e))
      - (if neg then (-1 : ℚ) else 1) * x
      = (if neg then (-1 : ℚ) else 1) * ((m - x * (2 : ℚ) ^ (52 - e)) * (2 : ℚ) ^ (-(52 - e))) := by
    have : x = x * ((2 : ℚ) ^ (52 - e) * (2 : ℚ) ^ (-(52 - e))) := by rw [hmul, mul_one]
    conv_lhs => rw [this]
    ring
  have hsign : |(if neg then (-1 : ℚ) else 1)| = 1 := by
    cases neg <;> simp
  rw [hfac, abs_mul, hsign, one_mul, abs_mul, abs_of_pos hpos]
  have hbound : (2 : ℚ) ^ (-(52 - e)) = (2 : ℚ) ^ e / 2 ^ 52 := by
    rw [show -(52 - e) = e + -(52 : Int) by ring, zpow_add₀ (by norm_num : (2 : ℚ) ≠ 0),
      zpow_neg, div_eq_mul_inv]
    norm_num
  calc |m - x * (2 : ℚ) ^ (52 - e)| * (2 : ℚ) ^ (-(52 - e))
      ≤ 1 / 2 * (2 : ℚ) ^ (-(52 - e)) := mul_le_mul_of_nonneg_right herr (le_of_lt hpos)
    _ = (2 : ℚ) ^ e / 2 ^ 53 := by rw [hbound]; ring
    _ ≤ x / 2 ^ 53 := div_le_div_of_nonneg_right hlo (by positivity)

/-- The quotient of two converted integers below `2^53` is the rounded
quotient of their absolute values, with the sign of the dividend. -/
theorem Float64.div_ofInt_eq (total cnt : Int) (hcnt : 0 < cnt) (hcnt' : cnt < 2 ^ 53)
    (h0 : total ≠ 0) (hsmall : |total| < 2 ^ 53) :
    ∃ P : Nat, 0 < P ∧ (Float64.ofInt total).div (Float64.ofInt cnt)
      = roundRatio (decide (total < 0)) (total.natAbs * P) (cnt.natAbs * P) := by
  have habs := abs_lt.mp hsmall
  have hb : Float64.ofInt cnt = ⟨((cnt.natAbs * 2 ^ (53 - bitLen cnt.natAbs) : Nat) : Int),
      -((53 - bitLen cnt.natAbs : Nat) : Int)⟩ := Float64.ofInt_pos cnt hcnt hcnt'
  have ha : Float64.ofInt total
      = ⟨if decide (total < 0) then -((total.natAbs * 2 ^ (53 - bitLen total.natAbs) : Nat) : Int)
          else ((total.natAbs * 2 ^ (53 - bitLen total.natAbs) : Nat) : Int),
        -((53 - bitLen total.natAbs : Nat) : Int)⟩ := by
    by_cases hneg : total < 0
    · rw [Float64.ofInt_neg total hneg (by omega)]; simp [hneg]
    · rw [Float64.ofInt_pos total (by omega) (by omega)]; simp [hneg]
  generalize 53 - bitLen total.natAbs = ta at ha
  generalize 53 - bitLen cnt.natAbs = tb at hb
  have hman_a : (Float64.ofInt total).man.natAbs = total.natAbs * 2 ^ ta := by
    rw [ha]
    by_cases hneg : total < 0
    · simp only [hneg, decide_True, if_true, Int.natAbs_neg, Int.natAbs_ofNat]
    · simp only [hneg, decide_False, Bool.false_eq_true, if_false, Int.natAbs_ofNat]
  have hsign_a : decide ((Float64.ofInt total).man < 0) = decide (total < 0) := by
    rw [ha]
    have hpos : 0 < total.natAbs * 2 ^ ta := Nat.mul_pos (by omega) (Nat.two_pow_pos _)
    by_cases hneg : total < 0
    · simp only [hneg, decide_True, if_true]
      exact decide_eq_true (by omega)
    · simp only [hneg, decide_False, Bool.false_eq_true, if_false]
      exact decide_eq_false (by omega)
  have hsign_b : decide ((Float64.ofInt cnt).man < 0) = false := by
    rw [hb]
    exact decide_eq_false (not_lt.mpr (Int.ofNat_nonneg _))
  have hexp_a : (Float64.ofInt total).exp = -(ta : Int) := by rw [ha]
  have hexp_b : (Float64.ofInt cnt).exp = -(tb : Int) := by rw [hb]
  have hman_b : (Float64.ofInt cnt).man.natAbs = cnt.natAbs * 2 ^ tb := by
    rw [hb]; simp only [Int.natAbs_ofNat]
  refine ⟨2 ^ max ta tb, Nat.two_pow_pos _, ?_⟩
  unfold Float64.div
  rw [hman_a, hman_b, hsign_a, hsign_b, hexp_a, hexp_b, Bool.bne_false]
  have hn : total.natAbs * 2 ^ ta * 2 ^ (-(ta : Int) - -(tb : Int)).toNat
      = total.natAbs * 2 ^ max ta tb := by
    rw [mul_assoc, ← pow_add]
    congr 2
    omega
  have hd : cnt.natAbs * 2 ^ tb * 2 ^ (-(tb : Int) - -(ta : Int)).toNat
      = cnt.natAbs * 2 ^ max ta tb := by
    rw [mul_assoc, ← pow_add]
    congr 2
    omega
  rw [hn, hd]

/-- Division of two converted integers is exact when the divisor divides the
dividend and the dividend is below `2^53` in absolute value. -/
theorem Float64.div_ofInt_exact (total cnt : Int) (hcnt : 0 < cnt) (hdvd : cnt ∣ total)
    (hsmall : |total| < 2 ^ 53) :
    ((Float64.ofInt total).div (Float64.ofInt cnt)).toRat = (total : ℚ) / (cnt : ℚ) := by
  by_cases h0 : total = 0
  · subst h0
    rw [Float64.ofInt_zero]
    have : (Float64.mk 0 0).div (Float64.ofInt cnt) = ⟨0, 0⟩ := by
      unfold Float64.div roundRatio
      simp
    rw [this]
    simp [Float64.toRat]
  · obtain ⟨q, hq⟩ := hdvd
    have habs := abs_lt.mp hsmall
    have hq0 : q ≠ 0 := by
      intro h; rw [h, mul_zero] at hq; exact h0 hq
    have hcq : cnt.natAbs * q.natAbs = total.natAbs := by
      rw [hq, Int.natAbs_mul]
    have hqpos : 0 < q.natAbs := Int.natAbs_pos.mpr hq0
    have hcpos : 0 < cnt.natAbs := Int.natAbs_pos.mpr (by omega)
    have hcle : cnt.natAbs ≤ total.natAbs := by
      rw [← hcq]; exact Nat.le_mul_of_pos_right _ hqpos
    have hqle : q.natAbs ≤ total.natAbs := by
      rw [← hcq]; exact Nat.le_mul_of_pos_left _ hcpos
    obtain ⟨P, hP, hdiv⟩ := Float64.div_ofInt_eq total cnt hcnt (by omega) h0 hsmall
    have hnum : total.natAbs * P = q.natAbs * (cnt.natAbs * P) := by
      rw [← hcq]; ring
    rw [hdiv, hnum, roundRatio_mul _ q.natAbs _ hqpos (by omega) (Nat.mul_pos hcpos hP),
      toRat_scaled]
    have hcq' : (cnt : ℚ) ≠ 0 := by
      have : cnt ≠ 0 := by omega
      exact_mod_cast this
    rw [hq, Int.cast_mul, mul_div_cancel_left₀ _ hcq']
    have hqsign : (total < 0) ↔ (q < 0) := by
      rw [hq]
      constructor
      · intro h
        by_contra hcon
        have : 0 ≤ cnt * q := Int.mul_nonneg (by omega) (by omega)
        omega
      · intro h
        exact Int.mul_neg_of_pos_of_neg hcnt h
    by_cases hneg : q < 0
    · have ht : cnt * q < 0 := hq ▸ hqsign.mpr hneg
      have h : q = -((q.natAbs : ℕ) : ℤ) := by omega
      simp only [ht, decide_True, if_true]
      generalize q.natAbs = n at h
      rw [h]
      push_cast
      rfl
    · have ht : ¬ cnt * q < 0 := fun h => hneg (hqsign.mp (hq ▸ h))
      have h : q = ((q.natAbs : ℕ) : ℤ) := by omega
      simp only [ht, decide_False, Bool.false_eq_true, if_false]
      generalize q.natAbs = n at h
      rw [h]
      push_cast
      rfl

/-- The quotient of two converted integers below `2^53` differs from the
exact quotient by at most `2^-53` times the exact quotient. -/
theorem Float64.div_ofInt_error (total cnt : Int) (hcnt : 0 < cnt) (hcnt' : cnt < 2 ^ 53)
    (hsmall : |total| < 2 ^ 53) :
    |((Float64.ofInt total).div (Float64.ofInt cnt)).toRat - (total : ℚ) / (cnt : ℚ)|
      ≤ |(total : ℚ) / (cnt : ℚ)| / 2 ^ 53 := by
  by_cases h0 : total = 0
  · rw [Float64.div_ofInt_exact total cnt hcnt (h0 ▸ dvd_zero cnt) hsmall]
    simp only [sub_self, abs_zero]
    positivity
  · obtain ⟨P, hP, hdiv⟩ := Float64.div_ofInt_eq total cnt hcnt hcnt' h0 hsmall
    have hK : 0 < total.natAbs := Int.natAbs_pos.mpr h0
    have hc : 0 < cnt.natAbs := Int.natAbs_pos.mpr (by omega)
    have herr := roundRatio_error (decide (total < 0)) (total.natAbs * P) (cnt.natAbs * P)
      (Nat.mul_pos hK hP) (Nat.mul_pos hc hP)
    rw [← hdiv] at herr
    have hPq : (P : ℚ) ≠ 0 := by
      have : P ≠ 0 := by omega
      exact_mod_cast this
    have hratio : ((total.natAbs * P : Nat) : ℚ) / ((cnt.natAbs * P : Nat) : ℚ)
        = |(total : ℚ)| / (cnt : ℚ) := by
      push_cast
      rw [mul_div_mul_right _ _ hPq, Nat.cast_natAbs, Nat.cast_natAbs, Int.cast_abs, Int.cast_abs,
        abs_of_pos (by exact_mod_cast hcnt : (0 : ℚ) < (cnt : ℚ))]
    rw [hratio] at herr
    have hcq : (0 : ℚ) < (cnt : ℚ) := by exact_mod_cast hcnt
    have habsdiv : |(total : ℚ) / (cnt : ℚ)| = |(total : ℚ)| / (cnt : ℚ) := by
      rw [abs_div, abs_of_pos hcq]
    have hsigned : (if decide (total < 0) = true then (-1 : ℚ) else 1) * (|(total : ℚ)| / (cnt : ℚ))
        = (total : ℚ) / (cnt : ℚ) := by
      by_cases hneg : total < 0
      · have : (total : ℚ) < 0 := by exact_mod_cast hneg
        simp only [hneg, decide_True, if_true, abs_of_neg this]
        ring
      · have : (0 : ℚ) ≤ (total : ℚ) := by exact_mod_cast (not_lt.mp hneg)
        simp only [hneg, decide_False, Bool.false_eq_true, if_false, abs_of_nonneg this]
        ring
    rw [hsigned] at herr
    rw [habsdiv]
    exact herr

/-! ## C8: totals and the average -/

/-- C8, as stated, fails: for three days with 1, 1 and 2 messages
`calculateStats` returns TotalMessages 4, ActiveDays 3 and the AvgPerDay
`6004799503160661 * 2^-52` (the double nearest to 4/3), and that number times
3 is not 4.  And for two days with `2^62` messages each, whose counts sum to
`2^63`, it returns the TotalMessages `-2^63`: the addition on `int` wraps
around. -/
theorem calculateStats_average_inexact :
    (calculateStats envForward thirdsDays).map
        (fun s => (s.TotalMessages, s.ActiveDays, s.AvgPerDay))
      = some (4, 3, ⟨6004799503160661, -52⟩) ∧
    (Float64.mk 6004799503160661 (-52)).toRat * 3 ≠ 4 ∧
    overflowDays.sumValues = 9223372036854775808 ∧
    (calculateStats envForward overflowDays).map (fun s => s.TotalMessages)
      = some (-9223372036854775808) := by
  refine ⟨by decide, ?_, by decide, by decide⟩
  unfold Float64.toRat
  norm_num

/-- C8 (amended): on a non-empty DailyCounts `calculateStats` returns when
every key has at least 7 bytes, and then ActiveDays is the number of dates
(they are distinct, and there is at least one, so the division is not by
zero), TotalMessages is the sum of all counts reduced to the range of `int`
(wrapped around modulo `2^64`), hence the sum itself when it lies in the
range, and AvgPerDay is the `float64` quotient of the two, rounded to nearest.  AvgPerDay is the exact rational
TotalMessages / ActiveDays, so that AvgPerDay × ActiveDays = TotalMessages,
when ActiveDays divides TotalMessages and |TotalMessages| < 2^53; in general,
for |TotalMessages| < 2^53 and ActiveDays < 2^53, it differs from the exact
quotient by at most 2^-53 times that quotient. -/
theorem calculateStats_average (env : Env) (hv : env.Valid) (m : GoMap Int) (hne : m.len ≠ 0) :
    ((∀ k ∈ m.keys, 7 ≤ k.length) → ∃ stats, calculateStats env m = some stats) ∧
    ∀ stats, calculateStats env m = some stats →
      stats.ActiveDays = (m.keys.length : Int) ∧ m.keys.Nodup ∧ 1 ≤ stats.ActiveDays ∧
      stats.TotalMessages = wrapInt64 m.sumValues ∧
      (-9223372036854775808 ≤ m.sumValues → m.sumValues < 9223372036854775808 →
        stats.TotalMessages = m.sumValues) ∧
      stats.AvgPerDay = (Float64.ofInt stats.TotalMessages).div (Float64.ofInt stats.ActiveDays) ∧
      (stats.ActiveDays ∣ stats.TotalMessages → |stats.TotalMessages| < 2 ^ 53 →
        stats.AvgPerDay.toRat = (stats.TotalMessages : ℚ) / (stats.ActiveDays : ℚ) ∧
        stats.AvgPerDay.toRat * (stats.ActiveDays : ℚ) = (stats.TotalMessages : ℚ)) ∧
      (|stats.TotalMessages| < 2 ^ 53 → stats.ActiveDays < 2 ^ 53 →
        |stats.AvgPerDay.toRat - (stats.TotalMessages : ℚ) / (stats.ActiveDays : ℚ)|
          ≤ |(stats.TotalMessages : ℚ) / (stats.ActiveDays : ℚ)| / 2 ^ 53) := by
  refine ⟨(calculateStats_isSome env hv m hne).mpr, ?_⟩
  intro stats h
  have hs := calculateStats_some env hv m hne stats h
  have hactive : stats.ActiveDays = (m.keys.length : Int) := by
    rw [hs.2.2.1]
    unfold GoMap.len GoMap.keys
    rw [List.length_map]
  have hpos : 1 ≤ stats.ActiveDays := by
    rw [hs.2.2.1]
    have : 0 < m.len := Nat.pos_of_ne_zero hne
    omega
  have havg : stats.AvgPerDay
      = (Float64.ofInt stats.TotalMessages).div (Float64.ofInt stats.ActiveDays) := by
    rw [hs.2.2.2.2.2.2.2.2.2.1, hs.2.1, hs.2.2.1]
  refine ⟨hactive, List.Sorted.nodup m.sorted, hpos, hs.2.1,
    fun h1 h2 => by rw [hs.2.1, wrapInt64_of_inRange _ ⟨h1, h2⟩], havg, ?_, ?_⟩
  · intro hdvd hsmall
    have hexact :=
      Float64.div_ofInt_exact stats.TotalMessages stats.ActiveDays (by omega) hdvd hsmall
    rw [havg, hexact]
    refine ⟨rfl, ?_⟩
    have hne0 : (stats.ActiveDays : ℚ) ≠ 0 := by
      have : stats.ActiveDays ≠ 0 := by omega
      exact_mod_cast this
    exact div_mul_cancel₀ _ hne0
  · intro hsmall hdays
    rw [havg]
    exact Float64.div_ofInt_error stats.TotalMessages stats.ActiveDays (by omega) hdays hsmall

/-- The witness of C8: 4 and 6 messages on two days give exactly 5. -/
theorem calculateStats_average_witness :
    (((∀ k ∈ evenDays.keys, 7 ≤ k.length) →
        ∃ stats, calculateStats envForward evenDays = some stats) ∧
    ∀ stats, calculateStats envForward evenDays = some stats →
      stats.ActiveDays = (evenDays.keys.length : Int) ∧ evenDays.keys.Nodup ∧
      1 ≤ stats.ActiveDays ∧
      stats.TotalMessages = wrapInt64 evenDays.sumValues ∧
      (-9223372036854775808 ≤ evenDays.sumValues → evenDays.sumValues < 9223372036854775808 →
        stats.TotalMessages = evenDays.sumValues) ∧
      stats.AvgPerDay = (Float64.ofInt stats.TotalMessages).div (Float64.ofInt stats.ActiveDays) ∧
      (stats.ActiveDays ∣ stats.TotalMessages → |stats.TotalMessages| < 2 ^ 53 →
        stats.AvgPerDay.toRat = (stats.TotalMessages : ℚ) / (stats.ActiveDays : ℚ) ∧
        stats.AvgPerDay.toRat * (stats.ActiveDays : ℚ) = (stats.TotalMessages : ℚ)) ∧
      (|stats.TotalMessages| < 2 ^ 53 → stats.ActiveDays < 2 ^ 53 →
        |stats.AvgPerDay.toRat - (stats.TotalMessages : ℚ) / (stats.ActiveDays : ℚ)|
          ≤ |(stats.TotalMessages : ℚ) / (stats.ActiveDays : ℚ)| / 2 ^ 53)) ∧
    (calculateStats envForward evenDays).map (fun s => (s.TotalMessages, s.ActiveDays, s.AvgPerDay))
      = some (10, 2, Float64.ofInt 5) :=
  ⟨calculateStats_average envForward envForward_valid evenDays (by decide), by decide⟩

/-! ## C4: dependence on the enumeration order -/

theorem sortedDays_counts_eq (env₁ env₂ : Env) (h₁ : env₁.Valid) (h₂ : env₂.Valid)
    (m : GoMap Int) :
    (sortedDays env₁ m).map (fun d => d.count) = (sortedDays env₂ m).map (fun d => d.count) := by
  have hp : ((sortedDays env₁ m).map (fun d => d.count)).Perm
      ((sortedDays env₂ m).map (fun d => d.count)) :=
    ((sortedDays_perm env₁ h₁ m).trans (sortedDays_perm env₂ h₂ m).symm).map _
  have hs : ∀ env : Env, env.Valid →
      ((sortedDays env m).map (fun d => d.count)).Sorted (fun a b => b ≤ a) := by
    intro env hv
    exact List.pairwise_map.mpr ((hv.sortSorted _).imp (fun hab => not_lt.mp hab))
  haveI : IsAntisymm Int (fun a b => b ≤ a) := ⟨fun _ _ hab hba => le_antisymm hba hab⟩
  exact List.eq_of_perm_of_sorted hp (hs env₁ h₁) (hs env₂ h₂)

theorem sortedDays_eq_of_nodup (env₁ env₂ : Env) (h₁ : env₁.Valid) (h₂ : env₂.Valid)
    (m : GoMap Int) (hnd : (m.entries.map Prod.snd).Nodup) :
    sortedDays env₁ m = sortedDays env₂ m := by
  have hp : (sortedDays env₁ m).Perm (sortedDays env₂ m) :=
    (sortedDays_perm env₁ h₁ m).trans (sortedDays_perm env₂ h₂ m).symm
  have hs : ∀ env : Env, env.Valid →
      (sortedDays env m).Sorted (fun a b => b.count < a.count ∨ a = b) := by
    intro env hv
    have hcnt : ((sortedDays env m).map (fun d => d.count)).Nodup := by
      have hpc : ((sortedDays env m).map (fun d => d.count)).Perm (m.entries.map Prod.snd) := by
        have := (sortedDays_perm env hv m).map (fun d => d.count)
        simpa [List.map_map, Function.comp_def] using this
      exact hpc.nodup_iff.mpr hnd
    have hne : (sortedDays env m).Pairwise (fun a b => a.count ≠ b.count) :=
      List.pairwise_map.mp hcnt
    exact ((hv.sortSorted _).and hne).imp
      (fun hab => Or.inl (lt_of_le_of_ne (not_lt.mp hab.1) (Ne.symm hab.2)))
  haveI : IsAntisymm dayCount (fun a b => b.count < a.count ∨ a = b) :=
    ⟨fun a b hab hba => by
      rcases hab with hab | hab
      · rcases hba with hba | hba
        · exact absurd (lt_trans hab hba) (lt_irrefl _)
        · exact hba.symm
      · exact hab⟩
  exact List.eq_of_perm_of_sorted hp (hs env₁ h₁) (hs env₂ h₂)

theorem peakOf_eq (env₁ env₂ : Env) (h₁ : env₁.Valid) (h₂ : env₂.Valid) (mm : GoMap Int) :
    (peakOf env₁ mm).2 = (peakOf env₂ mm).2 ∧
    ((peakOf env₁ mm).1 = none ↔ (peakOf env₂ mm).1 = none) ∧
    ((mm.entries.map Prod.snd).Nodup → (peakOf env₁ mm).1 = (peakOf env₂ mm).1) := by
  have hp₁ := h₁.rangeMonths mm.entries
  have hp₂ := h₂.rangeMonths mm.entries
  obtain ⟨_, hmax₁, hcase₁⟩ := foldl_peakStep (env₁.rangeMonths mm.entries) (none, 0)
  obtain ⟨_, hmax₂, hcase₂⟩ := foldl_peakStep (env₂.rangeMonths mm.entries) (none, 0)
  unfold peakOf
  rcases hcase₁ with ⟨hr₁, hall₁⟩ | ⟨e₁, he₁, hr₁, hlt₁⟩
  · rcases hcase₂ with ⟨hr₂, _⟩ | ⟨e₂, he₂, _, hlt₂⟩
    · rw [hr₁, hr₂]
      exact ⟨rfl, Iff.rfl, fun _ => rfl⟩
    · exact absurd (hall₁ e₂ (hp₁.mem_iff.mpr (hp₂.mem_iff.mp he₂))) (not_le.mpr hlt₂)
  · rcases hcase₂ with ⟨_, hall₂⟩ | ⟨e₂, he₂, hr₂, _⟩
    · exact absurd (hall₂ e₁ (hp₂.mem_iff.mpr (hp₁.mem_iff.mp he₁))) (not_le.mpr hlt₁)
    · have hle₁ : e₂.2 ≤ e₁.2 := by
        have := hmax₁ e₂ (hp₁.mem_iff.mpr (hp₂.mem_iff.mp he₂))
        rw [hr₁] at this
        exact this
      have hle₂ : e₁.2 ≤ e₂.2 := by
        have := hmax₂ e₁ (hp₂.mem_iff.mpr (hp₁.mem_iff.mp he₁))
        rw [hr₂] at this
        exact this
      have heq : e₁.2 = e₂.2 := le_antisymm hle₂ hle₁
      rw [hr₁, hr₂]
      refine ⟨heq, by simp, ?_⟩
      intro hnd
      have : e₁ = e₂ :=
        List.inj_on_of_nodup_map hnd (hp₁.mem_iff.mp he₁) (hp₂.mem_iff.mp he₂) heq
      rw [this]

/-- C4, as stated, fails: for two days with 5 messages each, in two months, a
run whose `range` loops visit the entries in increasing key order and a run
whose loops visit them in decreasing key order (both are orders a Go map may be
enumerated in) return different TopDays, PeakDay and PeakMonth. -/
theorem calculateStats_depends_on_order :
    envForward.Valid ∧ envBackward.Valid ∧
    (calculateStats envForward tiedDays).map (fun s => (s.TopDays, s.PeakDay, s.PeakMonth))
      = some ([(ascii "2024-01-01", 5), (ascii "2024-02-01", 5)],
          some (ascii "2024-01-01", 5), some (ascii "2024-01", 5)) ∧
    (calculateStats envBackward tiedDays).map (fun s => (s.TopDays, s.PeakDay, s.PeakMonth))
      = some ([(ascii "2024-02-01", 5), (ascii "2024-01-01", 5)],
          some (ascii "2024-02-01", 5), some (ascii "2024-02", 5)) ∧
    calculateStats envForward tiedDays ≠ calculateStats envBackward tiedDays :=
  ⟨envForward_valid, envBackward_valid, by decide, by decide, by decide⟩

/-- C4 (amended): two runs of `calculateStats` on the same DailyCounts, with
any two enumeration orders of the maps and any two outcomes of `sort.Slice`,
either both panic or both return, and the results have the same
TotalMessages, ActiveDays, DateRange, MonthlyMessages, AvgPerDay and
DailyCounts, the same sequence of counts in TopDays and the same counts in
PeakDay and PeakMonth.  TopDays and PeakDay are identical when no two days
have the same count, and PeakMonth is identical when no two months have the
same total; with equal counts the order of TopDays and the choice of PeakDay
and PeakMonth depend on the enumeration order. -/
theorem calculateStats_deterministic (env₁ env₂ : Env) (h₁ : env₁.Valid) (h₂ : env₂.Valid)
    (m : GoMap Int) :
    ((∃ s, calculateStats env₁ m = some s) ↔ (∃ s, calculateStats env₂ m = some s)) ∧
    ∀ s₁ s₂, calculateStats env₁ m = some s₁ → calculateStats env₂ m = some s₂ →
      s₁.TotalMessages = s₂.TotalMessages ∧ s₁.ActiveDays = s₂.ActiveDays ∧
      s₁.DateRange = s₂.DateRange ∧ s₁.MonthlyMessages = s₂.MonthlyMessages ∧
      s₁.AvgPerDay = s₂.AvgPerDay ∧ s₁.DailyCounts = s₂.DailyCounts ∧
      s₁.TopDays.map Prod.snd = s₂.TopDays.map Prod.snd ∧
      s₁.PeakDay.map Prod.snd = s₂.PeakDay.map Prod.snd ∧
      s₁.PeakMonth.map Prod.snd = s₂.PeakMonth.map Prod.snd ∧
      ((m.entries.map Prod.snd).Nodup → s₁.TopDays = s₂.TopDays ∧ s₁.PeakDay = s₂.PeakDay) ∧
      ((s₁.MonthlyMessages.entries.map Prod.snd).Nodup → s₁.PeakMonth = s₂.PeakMonth) := by
  by_cases hne : m.len = 0
  · have hz : ∀ env : Env, calculateStats env m = some Stats.zero := by
      intro env
      unfold calculateStats
      rw [if_pos hne]
    refine ⟨⟨fun _ => ⟨_, hz env₂⟩, fun _ => ⟨_, hz env₁⟩⟩, ?_⟩
    intro s₁ s₂ e₁ e₂
    rw [hz env₁] at e₁
    rw [hz env₂] at e₂
    cases e₁
    cases e₂
    exact ⟨rfl, rfl, rfl, rfl, rfl, rfl, rfl, rfl, rfl, fun _ => ⟨rfl, rfl⟩, fun _ => rfl⟩
  · refine ⟨by rw [calculateStats_isSome env₁ h₁ m hne, calculateStats_isSome env₂ h₂ m hne], ?_⟩
    intro s₁ s₂ e₁ e₂
    obtain ⟨_, a1, a2, a3, a4, a5, a6, a7, a8, a9, a10⟩ := calculateStats_some env₁ h₁ m hne s₁ e₁
    obtain ⟨_, b1, b2, b3, b4, b5, b6, b7, b8, b9, b10⟩ := calculateStats_some env₂ h₂ m hne s₂ e₂
    have hcounts := sortedDays_counts_eq env₁ env₂ h₁ h₂ m
    have hpeak := peakOf_eq env₁ env₂ h₁ h₂ (monthlyOfDays m)
    refine ⟨by rw [a1, b1], by rw [a2, b2], ?_, by rw [a5, b5], by rw [a9, b9],
      by rw [a10, b10], ?_, ?_, ?_, ?_, ?_⟩
    · have e3 : s₁.DateRange.1 = s₂.DateRange.1 := Option.some.inj (a3.trans b3.symm)
      have e4 : s₁.DateRange.2 = s₂.DateRange.2 := Option.some.inj (a4.trans b4.symm)
      exact Prod.ext e3 e4
    · rw [a6, b6, List.map_map, List.map_map]
      have : ∀ l : List dayCount,
          (l.take 10).map (Prod.snd ∘ fun d => (d.date, d.count))
            = (l.map (fun d => d.count)).take 10 := by
        intro l
        rw [← List.map_take]
        rfl
      rw [this, this, hcounts]
    · rw [a7, b7, Option.map_map, Option.map_map]
      have : ∀ l : List dayCount,
          l.head?.map (Prod.snd ∘ fun d => (d.date, d.count))
            = (l.map (fun d => d.count)).head? := by
        intro l
        cases l <;> rfl
      rw [this, this, hcounts]
    · rw [a8, b8]
      obtain ⟨hv2, hnone, _⟩ := hpeak
      rcases foldl_peakStep (env₁.rangeMonths (monthlyOfDays m).entries) (none, 0)
        with ⟨_, _, ⟨hr₁, _⟩ | ⟨x₁, _, hr₁, _⟩⟩
      · have hn₁ : (peakOf env₁ (monthlyOfDays m)).1 = none := by
          unfold peakOf; rw [hr₁]
        rw [hn₁, hnone.mp hn₁]
      · rcases foldl_peakStep (env₂.rangeMonths (monthlyOfDays m).entries) (none, 0)
          with ⟨_, _, ⟨hr₂, _⟩ | ⟨x₂, _, hr₂, _⟩⟩
        · have hn₂ : (peakOf env₂ (monthlyOfDays m)).1 = none := by
            unfold peakOf; rw [hr₂]
          rw [hn₂, hnone.mpr hn₂]
        · unfold peakOf at hv2 ⊢
          rw [hr₁, hr₂] at hv2 ⊢
          simp only at hv2
          simp only [Option.map_some', hv2]
    · intro hnd
      rw [a6, a7, b6, b7, sortedDays_eq_of_nodup env₁ env₂ h₁ h₂ m hnd]
      exact ⟨rfl, rfl⟩
    · intro hnd
      rw [a5] at hnd
      rw [a8, b8]
      exact hpeak.2.2 hnd

/-- A witness of C4 (amended): two days with distinct counts, enumerated in
increasing and in decreasing key order, give the same statistics. -/
theorem calculateStats_deterministic_witness :
    (((∃ s, calculateStats envForward marchDays = some s) ↔
        (∃ s, calculateStats envBackward marchDays = some s)) ∧
    ∀ s₁ s₂, calculateStats envForward marchDays = some s₁ →
      calculateStats envBackward marchDays = some s₂ →
      s₁.TotalMessages = s₂.TotalMessages ∧ s₁.ActiveDays = s₂.ActiveDays ∧
      s₁.DateRange = s₂.DateRange ∧ s₁.MonthlyMessages = s₂.MonthlyMessages ∧
      s₁.AvgPerDay = s₂.AvgPerDay ∧ s₁.DailyCounts = s₂.DailyCounts ∧
      s₁.TopDays.map Prod.snd = s₂.TopDays.map Prod.snd ∧
      s₁.PeakDay.map Prod.snd = s₂.PeakDay.map Prod.snd ∧
      s₁.PeakMonth.map Prod.snd = s₂.PeakMonth.map Prod.snd ∧
      ((marchDays.entries.map Prod.snd).Nodup →
        s₁.TopDays = s₂.TopDays ∧ s₁.PeakDay = s₂.PeakDay) ∧
      ((s₁.MonthlyMessages.entries.map Prod.snd).Nodup → s₁.PeakMonth = s₂.PeakMonth)) ∧
    calculateStats envForward marchDays = calculateStats envBackward marchDays :=
  ⟨calculateStats_deterministic envForward envBackward envForward_valid envBackward_valid
    marchDays, by decide⟩

/-! ## Sample evaluations of the model -/

/-- The UTC date formatter on three timestamps. -/
theorem formatDateUTC_samples :
    formatDateUTC (Int64.ofInt 1710460800) = ascii "2024-03-15" ∧
    formatDateUTC (Int64.ofInt 1709251199) = ascii "2024-02-29" ∧
    formatDateUTC (Int64.ofInt 0) = ascii "1970-01-01" := by
  decide

/-- In the sample hierarchy the month "2024-03" holds two session files (one
of them unreadable) and a file that is no `.jsonl`, which is not counted. -/
theorem collectTokenStats_sample :
    (collectTokenStats (some sampleSessions)).map (fun m => m.entries)
      = some [(ascii "2024-03", monthlyOf 3 0 37 0 40 2)] := by
  decide

/-- The conversion `float64(x)` on sample integers; the right-hand sides are
the IEEE 754 doubles (significand and exponent). -/
theorem Float64.ofInt_samples :
    Float64.ofInt 10 = ⟨5 * 2 ^ 50, -49⟩ ∧
    Float64.ofInt 9007199254740993 = ⟨4503599627370496, 1⟩ ∧
    Float64.ofInt 9007199254740995 = ⟨4503599627370498, 1⟩ ∧
    Float64.ofInt 18446744073709551615 = ⟨4503599627370496, 12⟩ := by
  decide

/-- The division of `float64` on sample operands; the right-hand sides are
the IEEE 754 doubles (significand and exponent). -/
theorem Float64.div_samples :
    Float64.div (Float64.ofInt 10) (Float64.ofInt 2) = Float64.ofInt 5 ∧
    Float64.div (Float64.ofInt 4) (Float64.ofInt 3) = ⟨6004799503160661, -52⟩ ∧
    Float64.div (Float64.ofInt 1) (Float64.ofInt (-10)) = ⟨-7205759403792794, -56⟩ ∧
    Float64.div (Float64.ofInt 1) (Float64.ofInt 3) = ⟨6004799503160661, -54⟩ ∧
    Float64.div (Float64.ofInt 2) (Float64.ofInt 3) = ⟨6004799503160661, -53⟩ ∧
    Float64.div (Float64.ofInt 1) (Float64.ofInt 4) = ⟨4503599627370496, -54⟩ ∧
    Float64.div (Float64.ofInt 7) (Float64.ofInt 8) = ⟨7881299347898368, -53⟩ ∧
    Float64.div (Float64.ofInt 9007199254740991) (Float64.ofInt 9007199254740992)
      = ⟨9007199254740991, -53⟩ ∧
    Float64.div (Float64.ofInt 1000000) (Float64.ofInt 7) = ⟨4908534052571429, -35⟩ := by
  decide

/-- A line of 10 MiB - 1 bytes that ends in CR LF has 10 MiB bytes before its
line feed and does not fit the scanner's buffer: the scan stops there and the
snapshot of the first line, with total 10, is returned.  A line of 10 MiB - 1
bytes that ends in a bare line feed is delivered. -/
theorem parseSessionTokens_crlf_line :
    (parseSessionTokens (some crlfSession)).TotalTokens = Int64.ofInt 10 ∧
    (parseSessionTokens (some [tokenCountLine 80 1 0 9 0 10, tokenCountLine 10485759 2 0 23 0 25,
      tokenCountLine 80 3 0 37 0 40])).TotalTokens = Int64.ofInt 40 ∧
    (parseHistory formatDateUTC (some crlfHistory)).sumValues = 1 := by
  decide

/-- A key shorter than 7 bytes makes `calculateStats` panic at `date[:7]`. -/
theorem calculateStats_short_key : calculateStats envForward shortKeyDays = none := by
  decide

end CodexStats
